import Mathlib

/-!
# Verification of the Ab Initio `.mp` graph-extraction and flow-analysis core

This file gives a shallow embedding of the core of the repository
(`src/newabinitio.py`, with `src/abinitiotodoc.py` containing a
near-identical extractor) and proves properties of it:

* the line-by-line `.mp` extractor `parse_mp` (graph / component /
  parameter / connect statements, recognised with `re.match` patterns);
* the flow analyzer `topological_sort` (Kahn's algorithm with a
  fallback to declaration order, and a possible `KeyError` — modelled
  as `Option` — when an edge's target is not a declared component);
* the descriptor catalog `describe_component` / `friendly_param`;
* the successor lookup used by `build_doc` for "flows to" reporting.

Strings are modelled as `List Char` inside the matchers; whitespace and
case conversion are modelled at the ASCII level (all of the repository's
keywords and tables are ASCII).
-/

namespace Abinitio

/-! ## Low-level string machinery (Python `str.strip`, `\s`, `.lower()`) -/

/-- ASCII whitespace, as matched by Python's `\s` and stripped by
`str.strip()`: space, tab, newline, carriage return, vertical tab,
form feed. -/
def isWS (c : Char) : Bool :=
  c = ' ' || c = '\t' || c = '\n' || c = '\r' || c = '\x0b' || c = '\x0c'

/-- Python `str.strip()`: drop leading and trailing whitespace. -/
def pstrip (l : List Char) : List Char :=
  ((l.dropWhile isWS).reverse.dropWhile isWS).reverse

/-- Match a literal prefix (the fixed keyword part of an `re.match`
pattern), returning the remaining input. -/
def lit : List Char → List Char → Option (List Char)
  | [], l => some l
  | _ :: _, [] => none
  | p :: ps, c :: cs => if c = p then lit ps cs else none

/-- Match `\s+` greedily: at least one whitespace character, then the
maximal run (every use in the patterns is followed by a
non-whitespace literal, so the greedy run is exact). -/
def wsPlus (l : List Char) : Option (List Char) :=
  match l with
  | [] => none
  | c :: cs => if isWS c then some (cs.dropWhile isWS) else none

/-- All decompositions `s = pre ++ '"' :: post` at a closing quote, in
order of increasing `pre` — the order in which a lazy `(.+?)"` tries
closing quotes while backtracking. -/
def splitsAtQuote : List Char → List (List Char × List Char)
  | [] => []
  | c :: rest =>
    if c = '"' then
      ([], rest) :: (splitsAtQuote rest).map (fun p => (c :: p.1, p.2))
    else
      (splitsAtQuote rest).map (fun p => (c :: p.1, p.2))

/-- Candidate captures for `(.+?)` followed by `"`: the capture must be
nonempty, so the first input character is always consumed before the
scan for a closing quote starts. Candidates appear in lazy
(shortest-first) order. -/
def quoteSplits : List Char → List (List Char × List Char)
  | [] => []
  | c :: rest => (splitsAtQuote rest).map (fun p => (c :: p.1, p.2))

/-! ## The four statement matchers

Each matcher is the direct rendering of one `re.match` pattern from
`parse_mp`.  Backtracking over the lazy quoted capture is rendered by
trying the candidates of `quoteSplits` in order (`List.findSome?`). -/

/-- `"(.+?)"` with nothing after it: expect an opening quote, take the
lazily first candidate capture. -/
def quotedFirst (r : List Char) : Option String :=
  match r with
  | '"' :: s => (quoteSplits s).findSome? (fun p => some (String.mk p.1))
  | _ => none

/-- `re.match(r'graph\s+"(.+?)"', line)`, returning the capture. -/
def graphOf (l : List Char) : Option String := do
  let r ← lit "graph".data l
  let r ← wsPlus r
  quotedFirst r

/-- The `\s+<kw>\s+"(.+?)"` continuation shared by the component and
connect patterns (`kw` is `of` or `to`): it is tried for each
candidate first capture, and its failure backtracks into that
capture. -/
def kwQuoted (kw : List Char) (r : List Char) : Option String := do
  let r1 ← wsPlus r
  let r1 ← lit kw r1
  let r1 ← wsPlus r1
  quotedFirst r1

/-- `re.match(r'component\s+"(.+?)"\s+of\s+"(.+?)"', line)`, returning
both captures. -/
def componentOf (l : List Char) : Option (String × String) := do
  let r ← lit "component".data l
  let r ← wsPlus r
  match r with
  | '"' :: s =>
    (quoteSplits s).findSome?
      (fun p => (kwQuoted "of".data p.2).map (fun t => (String.mk p.1, t)))
  | _ => none

/-- `re.match(r'connect\s+"(.+?)"\s+to\s+"(.+?)"', line)`, returning
both captures. -/
def connectOf (l : List Char) : Option (String × String) := do
  let r ← lit "connect".data l
  let r ← wsPlus r
  match r with
  | '"' :: s =>
    (quoteSplits s).findSome?
      (fun p => (kwQuoted "to".data p.2).map (fun t => (String.mk p.1, t)))
  | _ => none

/-- Does the remainder satisfy `"?;?$`?  Exactly the suffixes the
optional closing quote and optional semicolon can absorb. -/
def tailOk (u : List Char) : Bool :=
  u = [] || u = ['"'] || u = [';'] || u = ['"', ';']

/-- The lazy value capture of `(.*?)"?;?$`: the shortest prefix whose
complement satisfies `"?;?$`.  Total: the full input always works. -/
def lazyValue (u : List Char) : List Char :=
  if tailOk u then []
  else
    match u with
    | [] => []
    | c :: rest => c :: lazyValue rest

/-- The value part `"?(.*?)"?;?$` of the parameter pattern: the leading
optional quote is consumed greedily when present (the rest of the
pattern can always complete, so this choice is never backtracked). -/
def tailCapture (u : List Char) : List Char :=
  match u with
  | '"' :: u1 => lazyValue u1
  | _ => lazyValue u

/-- `re.match(r'parameter\s+"(.+?)"\s+=\s+"?(.*?)"?;?$', line)`,
returning the name and value captures. -/
def paramOf (l : List Char) : Option (String × String) := do
  let r ← lit "parameter".data l
  let r ← wsPlus r
  match r with
  | '"' :: s =>
    (quoteSplits s).findSome? (fun p => do
      let r1 ← wsPlus p.2
      let r2 ← lit "=".data r1
      let r3 ← wsPlus r2
      some (String.mk p.1, String.mk (tailCapture r3)))
  | _ => none

/-! ## The graph model and the extractor state -/

/-- One declared component: raw type token and the ordered parameter
map (`parameters` dict; insertion ordered, value overwrite keeps the
original position, as Python dicts do). -/
structure Component where
  type : String
  parameters : List (String × String)
deriving DecidableEq, Repr

/-- The extracted model: the `graph` dict of `parse_mp` with keys
`graph_name`, `components` (insertion-ordered dict rendered as an
association list with unique keys) and `connections`. -/
structure GraphModel where
  graph_name : String
  components : List (String × Component)
  connections : List (String × String)
deriving DecidableEq, Repr

/-- Full extractor state: the model under construction plus the
`current` receiving-component cursor. -/
structure ParseState where
  graph : GraphModel
  current : Option String
deriving DecidableEq, Repr

/-- Association-list lookup (first matching key), the read of a Python
dict access. -/
def alookup {β : Type} : List (String × β) → String → Option β
  | [], _ => none
  | (a, b) :: rest, k => if a = k then some b else alookup rest k

/-- Dict assignment `d[k] = v`: overwrite in place when the key exists
(keeping its original position), append otherwise. -/
def upsert {β : Type} : List (String × β) → String → β → List (String × β)
  | [], k, v => [(k, v)]
  | (a, b) :: rest, k, v =>
    if a = k then (a, v) :: rest else (a, b) :: upsert rest k v

/-- `graph["components"][cur]["parameters"][p] = v`.  The cursor always
names a declared component when this runs (it is only ever set by a
component declaration, which inserts the entry), so the
absent-key case is unreachable and modelled as a no-op. -/
def setParam (comps : List (String × Component)) (cur p v : String) :
    List (String × Component) :=
  match comps with
  | [] => []
  | (a, b) :: rest =>
    if a = cur then (a, ⟨b.type, upsert b.parameters p v⟩) :: rest
    else (a, b) :: setParam rest cur p v

/-- Python truthiness of the `current` cursor (`None` and the empty
string are falsy; component names are never empty, so this coincides
with `isSome` on reachable states). -/
def currentTruthy : Option String → Bool
  | none => false
  | some s => !(s = "")

/-- One iteration of the `for raw in fh` loop of `parse_mp`: strip the
line, then the `if`/`elif` chain over the four statement shapes.
A line matching no branch (or failing its branch's pattern) leaves
the state unchanged. -/
def processLine (st : ParseState) (raw : String) : ParseState :=
  let line := pstrip raw.data
  if "graph".data.isPrefixOf line then
    match graphOf line with
    | some nm => { st with graph := { st.graph with graph_name := nm } }
    | none => st
  else if "component".data.isPrefixOf line then
    match componentOf line with
    | some (n, t) =>
      { graph := { st.graph with
          components := upsert st.graph.components n ⟨t, []⟩ },
        current := some n }
    | none => st
  else if "parameter".data.isPrefixOf line && currentTruthy st.current then
    match st.current, paramOf line with
    | some cur, some (p, v) =>
      { st with graph := { st.graph with
          components := setParam st.graph.components cur p v } }
    | _, _ => st
  else if "connect".data.isPrefixOf line then
    match connectOf line with
    | some e => { st with graph := { st.graph with
        connections := st.graph.connections ++ [e] } }
    | none => st
  else st

/-- Fold the line processor over the input. -/
def processLines (st : ParseState) (lines : List String) : ParseState :=
  lines.foldl processLine st

/-- The initial `graph` dict and cursor of `parse_mp`. -/
def initState : ParseState :=
  ⟨⟨"", [], []⟩, none⟩

/-- `parse_mp`: extract a `GraphModel` from the sequence of source
lines.  Total by construction — the only I/O failure in the source is
opening the file, which is outside the extraction loop. -/
def parse_mp (lines : List String) : GraphModel :=
  (processLines initState lines).graph

/-- The declared component names, in declaration order: the
`graph["components"].keys()` view passed to `topological_sort`. -/
def nodesOf (g : GraphModel) : List String :=
  g.components.map Prod.fst

/-! ## The flow analyzer: `topological_sort`

The Python loop body is

```
out_edges = defaultdict(list); indeg = {n: 0 for n in nodes}
for src, dst in edges:
    out_edges[src].append(dst)
    indeg[dst] += 1            # KeyError when dst is not a node!
q = deque([n for n in nodes if indeg[n] == 0])
order = []
while q:
    n = q.popleft(); order.append(n)
    for m in out_edges[n]:
        indeg[m] -= 1
        if indeg[m] == 0: q.append(m)
return order if len(order) == len(nodes) else list(nodes)
```

`indeg` is a plain dict keyed by the declared nodes, so the increment
raises `KeyError` on an edge whose target is undeclared; the whole
function is therefore modelled as returning `Option`.  (In the loop,
every `m` comes from `out_edges`, hence is an edge target; if the
build phase survived, those decrements cannot raise, so the
unreachable absent-key decrement is modelled as a no-op.) -/

/-- `indeg[dst] += 1`: `none` models the `KeyError` on an absent key.
Updates the first entry with the key, which is the unique one on all
inputs the analyzer receives (dict keys). -/
def bump : List (String × Int) → String → Option (List (String × Int))
  | [], _ => none
  | (a, v) :: rest, k =>
    if a = k then some ((a, v + 1) :: rest)
    else (bump rest k).map (fun r => (a, v) :: r)

/-- The edge pass building `indeg` (the `out_edges` side of the pass is
a pure grouping recovered by `outEdges` below). -/
def buildIndeg (ind : List (String × Int)) :
    List (String × String) → Option (List (String × Int))
  | [] => some ind
  | (_, dst) :: es => (bump ind dst).bind (fun ind1 => buildIndeg ind1 es)

/-- `out_edges[n]`: the targets of the edges whose source is `n`, in
edge order — exactly the list the `defaultdict(list)` pass appends. -/
def outEdges (edges : List (String × String)) (n : String) : List String :=
  (edges.filter (fun e => e.1 == n)).map Prod.snd

/-- `indeg[m] -= 1` on the first entry with key `m` (no-op on an absent
key, which the build phase makes unreachable). -/
def decr : List (String × Int) → String → List (String × Int)
  | [], _ => []
  | (a, v) :: rest, k =>
    if a = k then (a, v - 1) :: rest else (a, v) :: decr rest k

/-- The inner `for m in out_edges[n]` loop: decrement each successor,
enqueueing it the moment its in-degree reaches exactly zero. -/
def relax (ind : List (String × Int)) (q : List String) :
    List String → List (String × Int) × List String
  | [] => (ind, q)
  | m :: rest =>
    let ind1 := decr ind m
    let q1 := if alookup ind1 m = some 0 then q ++ [m] else q
    relax ind1 q1 rest

/-- Our termination measure: the total positive in-degree mass. -/
def sumPos (ind : List (String × Int)) : Nat :=
  (ind.map (fun p => p.2.toNat)).sum

/-- The `while q:` loop of `topological_sort`, as structural recursion
on a fuel.  `relax_measure` shows `q.length + sumPos ind` strictly
decreases per iteration, so with that much fuel the loop always ends
on an empty queue and the out-of-fuel arm is unreachable
(`kahnAux_fuel` below makes the fuel-independence precise). -/
def kahnAux (edges : List (String × String)) :
    Nat → List (String × Int) → List String → List String → List String
  | _, _, [], order => order
  | 0, _, _ :: _, order => order
  | fuel + 1, ind, n :: q1, order =>
    let p := relax ind q1 (outEdges edges n)
    kahnAux edges fuel p.1 p.2 (order ++ [n])

/-- The `while q:` loop, with its exact fuel. -/
def kahnLoop (edges : List (String × String)) (ind : List (String × Int))
    (q order : List String) : List String :=
  kahnAux edges (q.length + sumPos ind) ind q order

/-- `topological_sort(nodes, edges)`; `none` is the `KeyError` raised
when an edge targets an undeclared node.  On success the result is the
Kahn ordering when it covered every node, otherwise the fallback to
the original node order. -/
def topological_sort (nodes : List String)
    (edges : List (String × String)) : Option (List String) :=
  match buildIndeg (nodes.map (fun n => (n, 0))) edges with
  | none => none
  | some ind =>
    let q := nodes.filter (fun n => decide (alookup ind n = some 0))
    let order := kahnLoop edges ind q []
    some (if order.length = nodes.length then order else nodes)

/-- The analyzer's entry as used by `build_doc`:
`topological_sort(graph["components"].keys(), graph["connections"])`. -/
def orderModel (g : GraphModel) : Option (List String) :=
  topological_sort (nodesOf g) g.connections

/-! ## Successor lookup for reporting

`build_doc` computes, for each component in the narrative,
`outs = [dst for src, dst in graph["connections"] if src == comp]`. -/

/-- The successor-lookup comprehension of `build_doc`, rendered element
by element.  It reads only the edge list: its result cannot depend on
the declared components or on whether the overall ordering fell back
to declaration order. -/
def flow_targets : List (String × String) → String → List String
  | [], _ => []
  | (src, dst) :: rest, comp =>
    if src = comp then dst :: flow_targets rest comp
    else flow_targets rest comp

/-- Modelled from the spec's words (§3/§4.2): "for any `ComponentName`,
the ordered list of direct targets reachable by a single edge where
that name is the source, in edge-declaration order" — a pure filter
over `edges` by source name. -/
def successorLookupSpec (g : GraphModel) (n : String) : List String :=
  (g.connections.filter (fun e => e.1 == n)).map Prod.snd

/-! ## The descriptor catalog -/

/-- `TYPE_DESCRIPTIONS` of `newabinitio.py`, verbatim (including the
U+2011 non-breaking hyphens of the source strings). -/
def TYPE_DESCRIPTIONS : List (String × String) := [
  ("input_table", "Reads data from a flat, delimited or fixed‑width file and makes it available to the graph."),
  ("output_table", "Writes data out to a flat or delimited file for downstream consumption."),
  ("input_file", "Ingests raw files into the processing pipeline."),
  ("output_file", "Persists processed records to a target file location."),
  ("reformat", "Transforms each input record to a new structure or layout."),
  ("filter", "Removes records that do not satisfy specified business rules."),
  ("join", "Combines two or more streams based on matching keys."),
  ("rollup", "Aggregates data to produce grouped totals or statistics."),
  ("sort", "Orders records on specified keys to guarantee sequence for downstream steps."),
  ("dedup", "Eliminates duplicate records according to business keys."),
  ("lookup", "Enriches a record stream with reference data."),
  ("normalize", "Explodes hierarchical or repeating groups into flat rows.")]

/-- The fallback phrase of `describe_component` — note the source
spells it with a capital P, British "specialised", a U+2011
non-breaking hyphen and a trailing period. -/
def typeFallback : String := "Performs a specialised data‑processing step."

/-- `PARAM_FRIENDLY` of `newabinitio.py`, verbatim. -/
def PARAM_FRIENDLY : List (String × String) := [
  ("filename", "File path"),
  ("record_format", "Record layout"),
  ("delimiter", "Field delimiter"),
  ("transform", "Transformation logic"),
  ("key", "Key field(s)"),
  ("keys", "Key field(s)"),
  ("join_type", "Join type"),
  ("reject_limit", "Maximum % of bad records allowed")]

/-- Python `str.lower()` at the ASCII level, over the character list
(`String.toLower` itself recurses on byte positions and is not
kernel-reducible; on the ASCII table keys the two agree). -/
def strLower (s : String) : String :=
  String.mk (s.data.map Char.toLower)

/-- `Path(value).name`: the final path component.  Modelled for the
slash-separated file names that parameter values carry. -/
def pathName (s : String) : String :=
  (((s.splitOn "/").filter (fun c => c ≠ "")).getLast?).getD ""

/-- `describe_component(name, meta)`: case-insensitive type lookup with
the generic fallback phrase, then the heuristic parameter "bits"
appended for a few recognised types. -/
def describe_component (name : String) (meta : Component) : String :=
  let _ := name  -- the Python signature takes the name but never uses it
  let ctype := strLower meta.type
  let desc := (alookup TYPE_DESCRIPTIONS ctype).getD typeFallback
  let parms := meta.parameters
  let bit1 : List String :=
    if ctype = "input_table" ∨ ctype = "input_file" then
      match alookup parms "filename" with
      | some f => ["It reads **" ++ pathName f ++ "**."]
      | none => []
    else []
  let bit2 : List String :=
    if ctype = "output_table" ∨ ctype = "output_file" then
      match alookup parms "filename" with
      | some f => ["It produces **" ++ pathName f ++ "**."]
      | none => []
    else []
  let bit3 : List String :=
    if ctype = "filter" ∧ (alookup parms "transform").isSome then
      ["Filtering condition is defined in the `transform` expression."]
    else []
  let bit4 : List String :=
    if ctype = "join" then
      match alookup parms "keys" with
      | some k => ["Join keys: *" ++ k ++ "*."]
      | none => []
    else []
  String.intercalate " " (desc :: (bit1 ++ bit2 ++ bit3 ++ bit4))

/-- Python `str.replace("_", " ")` (single-character replacement). -/
def underscoreToSpace (s : String) : String :=
  String.mk (s.data.map (fun c => if c = '_' then ' ' else c))

/-- Python `str.title()` at the ASCII level: a letter is uppercased
when the previous character is not a letter, lowercased otherwise. -/
def titleChars : Bool → List Char → List Char
  | _, [] => []
  | prevAlpha, c :: rest =>
    if c.isAlpha then
      (if prevAlpha then c.toLower else c.toUpper) :: titleChars true rest
    else c :: titleChars false rest

/-- The humanization fallback of `friendly_param`. -/
def titleStr (s : String) : String :=
  String.mk (titleChars false (underscoreToSpace s).data)

/-- `friendly_param(pname)`: case-insensitive synonym lookup, falling
back to the title-cased humanization — never to the type fallback
phrase. -/
def friendly_param (pname : String) : String :=
  (alookup PARAM_FRIENDLY (strLower pname)).getD (titleStr pname)

/-- A line matching none of the four statement shapes. -/
def noMatch (l : List Char) : Prop :=
  graphOf l = none ∧ componentOf l = none ∧ paramOf l = none ∧ connectOf l = none

instance (l : List Char) : Decidable (noMatch l) := by
  unfold noMatch; infer_instance

/-- The last-match capture the spec describes for `name`: the quoted
string of the last line matching the graph-declaration shape, and the
empty string when no line matches. -/
def lastGraphName (lines : List String) : String :=
  (lines.reverse.findSome? (fun l => graphOf (pstrip l.data))).getD ""

/-- The two-component chain of the spec's round-trip scenario, used as
a concrete well-formed model. -/
def sampleModel : GraphModel :=
  ⟨"Sample",
   [("Read_Customers", ⟨"input_table", [("filename", "customers.dat")]⟩),
    ("Filter_Active", ⟨"filter", []⟩)],
   [("Read_Customers", "Filter_Active")]⟩

/-! ## Key uniqueness of the components dict, and last-declaration-wins -/

/-- Number of entries under a key — 1 for every present key of a
Python dict. -/
def countKeys (comps : List (String × Component)) (k : String) : Nat :=
  comps.countP (fun p => p.1 == k)

/-! ## Kahn-loop invariants (for C2 and C3)

The loop is analysed through the *remaining in-degree*: the number of
edge instances into `k` whose source has not yet been emitted. -/

/-- Edges into `k` from sources not yet in `order`, with multiplicity. -/
def remCount (edges : List (String × String)) (order : List String)
    (k : String) : Nat :=
  edges.countP (fun e => e.2 == k && !(order.contains e.1))

/-- A directed cycle (as a nonempty closed walk along `edges`). -/
def HasCycle (edges : List (String × String)) : Prop :=
  ∃ a p, List.Chain (fun x y => (x, y) ∈ edges) a (p ++ [a])

/-- Edge instances `n → m`, with multiplicity. -/
def edgeCnt (edges : List (String × String)) (n m : String) : Nat :=
  edges.countP (fun e => e.2 == m && e.1 == n)

/-- The loop invariant of the Kahn `while q:` loop: `ind` tracks the
remaining in-degrees of the declared nodes exactly, `order ++ q` is a
duplicate-free batch of declared nodes whose remaining in-degree is
zero, it contains every such node, and `order` is already
topologically sound (every edge into an emitted node comes from an
earlier emitted node). -/
structure KInv (edges : List (String × String)) (nodes : List String)
    (ind : List (String × Int)) (q order : List String) : Prop where
  look : ∀ k, alookup ind k =
    if k ∈ nodes then some ((remCount edges order k : Int)) else none
  nodup : (order ++ q).Nodup
  sub : ∀ x ∈ order ++ q, x ∈ nodes
  zero : ∀ x ∈ order ++ q, remCount edges order x = 0
  complete : ∀ x ∈ nodes, remCount edges order x = 0 → x ∈ order ++ q
  sound : ∀ e ∈ edges, ∀ j, order.get? j = some e.2 →
    ∃ i, i < j ∧ order.get? i = some e.1

/-- What the loop guarantees about its final `order`. -/
structure KOut (edges : List (String × String)) (nodes : List String)
    (order : List String) : Prop where
  nodup : order.Nodup
  sub : ∀ x ∈ order, x ∈ nodes
  zero : ∀ x ∈ order, remCount edges order x = 0
  complete : ∀ x ∈ nodes, remCount edges order x = 0 → x ∈ order
  sound : ∀ e ∈ edges, ∀ j, order.get? j = some e.2 →
    ∃ i, i < j ∧ order.get? i = some e.1

/-- The walk `f^[d-1] x, …, f x, x`, descending along an iterated
predecessor function. -/
def chainDesc (f : String → String) : Nat → String → List String
  | 0, _ => []
  | d + 1, x => f^[d] x :: chainDesc f d x

/-- The "induced subgraph on declared components": the edges both of
whose endpoints are declared (the subgraph the spec quantifies over). -/
def inducedEdges (g : GraphModel) : List (String × String) :=
  g.connections.filter
    (fun e => (nodesOf g).contains e.1 && (nodesOf g).contains e.2)

/-- Declared `B` then `A`, with a dangling-source edge `G → A` and the
declared edge `A → B`: the induced subgraph is the single edge
`A → B`, acyclic, yet `A` never reaches in-degree zero so the run
falls back to declaration order `[B, A]`, which violates `A` before
`B`. -/
def acyclicFallbackModel : GraphModel :=
  ⟨"", [("B", ⟨"filter", []⟩), ("A", ⟨"filter", []⟩)],
   [("G", "A"), ("A", "B")]⟩

/-- A declared two-cycle plus an edge to the undeclared target `C`:
the induced subgraph has a cycle, and the in-degree build raises
`KeyError` on `C`. -/
def cyclicDanglingModel : GraphModel :=
  ⟨"", [("A", ⟨"filter", []⟩), ("B", ⟨"filter", []⟩)],
   [("A", "B"), ("B", "A"), ("A", "C")]⟩

/-- A clean declared two-cycle (all targets declared). -/
def cyclicPairModel : GraphModel :=
  ⟨"G", [("A", ⟨"filter", []⟩), ("B", ⟨"filter", []⟩)],
   [("A", "B"), ("B", "A")]⟩

/-- The acyclic two-component chain `A → B`. -/
def chainPairModel : GraphModel :=
  ⟨"G", [("A", ⟨"input_table", []⟩), ("B", ⟨"filter", []⟩)],
   [("A", "B")]⟩

theorem alookup_decr (ind : List (String × Int)) (m k : String) :
    alookup (decr ind m) k =
      if k = m then (alookup ind m).map (fun v => v - 1) else alookup ind k := by
  induction ind with
  | nil => simp [decr, alookup]
  | cons hd tl ih =>
    obtain ⟨a, v⟩ := hd
    rcases eq_or_ne a m with ham | ham
    · subst ham
      rcases eq_or_ne k a with hak | hak
      · subst hak; simp [decr, alookup]
      · simp [decr, alookup, hak, Ne.symm hak]
    · rcases eq_or_ne a k with hak | hak
      · subst hak
        simp [decr, alookup, ham, Ne.symm ham]
      · simp [decr, alookup, ham, hak, ih]

theorem sumPos_decr (ind : List (String × Int)) (m : String) :
    sumPos (decr ind m) +
      ((alookup ind m).elim 0 (fun v => min v.toNat 1)) = sumPos ind := by
  induction ind with
  | nil => simp [decr, alookup, sumPos]
  | cons hd tl ih =>
    obtain ⟨a, v⟩ := hd
    rcases eq_or_ne a m with ham | ham
    · subst ham
      have h1 : decr ((a, v) :: tl) a = (a, v - 1) :: tl := by simp [decr]
      have h2 : alookup ((a, v) :: tl) a = some v := by simp [alookup]
      rw [h1, h2]
      simp only [sumPos, List.map_cons, List.sum_cons, Option.elim_some]
      omega
    · have h1 : decr ((a, v) :: tl) m = (a, v) :: decr tl m := by simp [decr, ham]
      have h2 : alookup ((a, v) :: tl) m = alookup tl m := by simp [alookup, ham]
      rw [h1, h2]
      simp only [sumPos, List.map_cons, List.sum_cons]
      simp only [sumPos] at ih
      omega

theorem relax_measure (succs : List String) :
    ∀ ind q, (relax ind q succs).2.length + sumPos (relax ind q succs).1 ≤
      q.length + sumPos ind := by
  induction succs with
  | nil => intro ind q; simp [relax]
  | cons m rest ih =>
    intro ind q
    simp only [relax]
    refine le_trans (ih _ _) ?_
    have hdec := sumPos_decr ind m
    by_cases h : alookup (decr ind m) m = some 0
    · rw [if_pos h]
      -- the decrement hit zero coming from 1, so one unit of mass paid for it
      rw [alookup_decr, if_pos rfl] at h
      simp only [List.length_append, List.length_cons, List.length_nil]
      match hv : alookup ind m with
      | none => rw [hv] at h; simp at h
      | some v =>
        rw [hv] at h
        simp only [Option.map_some'] at h
        have hv1 : v = 1 := by
          have := Option.some.inj h; omega
        rw [hv, hv1] at hdec
        simp only [Option.elim_some] at hdec
        omega
    · rw [if_neg h]
      match hv : alookup ind m with
      | none => rw [hv] at hdec; simp only [Option.elim_none] at hdec; omega
      | some v =>
        rw [hv] at hdec; simp only [Option.elim_some] at hdec; omega

/-- Any two sufficient fuels run the loop to the same result. -/
theorem kahnAux_fuel (edges : List (String × String)) :
    ∀ fuel1 fuel2 ind q order, q.length + sumPos ind ≤ fuel1 →
      q.length + sumPos ind ≤ fuel2 →
      kahnAux edges fuel1 ind q order = kahnAux edges fuel2 ind q order := by
  intro fuel1
  induction fuel1 with
  | zero =>
    intro fuel2 ind q order h1 _
    match q with
    | [] =>
      match fuel2 with
      | 0 => rfl
      | _ + 1 => rfl
    | _ :: _ => simp at h1
  | succ f1 ih =>
    intro fuel2 ind q order h1 h2
    match q with
    | [] =>
      match fuel2 with
      | 0 => rfl
      | _ + 1 => rfl
    | n :: q1 =>
      match fuel2 with
      | 0 => simp at h2
      | f2 + 1 =>
        simp only [kahnAux]
        have hm := relax_measure (outEdges edges n) ind q1
        simp only [List.length_cons] at h1 h2
        exact ih f2 _ _ _ (by omega) (by omega)

theorem kahnAux_nil (edges : List (String × String)) (fuel : Nat)
    (ind : List (String × Int)) (order : List String) :
    kahnAux edges fuel ind [] order = order := by
  match fuel with
  | 0 => rfl
  | _ + 1 => rfl

theorem kahnLoop_nil (edges : List (String × String))
    (ind : List (String × Int)) (order : List String) :
    kahnLoop edges ind [] order = order := kahnAux_nil _ _ _ _

theorem kahnLoop_cons (edges : List (String × String))
    (ind : List (String × Int)) (n : String) (q1 order : List String) :
    kahnLoop edges ind (n :: q1) order =
      kahnLoop edges (relax ind q1 (outEdges edges n)).1
        (relax ind q1 (outEdges edges n)).2 (order ++ [n]) := by
  unfold kahnLoop
  have hm := relax_measure (outEdges edges n) ind q1
  have h1 : (n :: q1).length + sumPos ind = (q1.length + sumPos ind) + 1 := by
    simp [List.length_cons]; omega
  rw [h1]
  simp only [kahnAux]
  exact kahnAux_fuel edges _ _ _ _ _ (by omega) (by omega)

/-! ## Helper lemmas about the matchers and the line processor -/

theorem lit_eq_some_iff (p : List Char) :
    ∀ l r, lit p l = some r ↔ l = p ++ r := by
  induction p with
  | nil =>
    intro l r
    simp [lit, eq_comm]
  | cons c ps ih =>
    intro l r
    match l with
    | [] => simp [lit]
    | d :: ds =>
      by_cases h : d = c
      · subst h
        simp only [lit, if_pos rfl, List.cons_append, List.cons.injEq, true_and]
        exact ih ds r
      · rw [lit, if_neg h]
        simp only [List.cons_append]
        constructor
        · intro hc; exact Option.noConfusion hc
        · intro hc
          injection hc with h1 _
          exact absurd h1 h

theorem lit_none_of_not_pre (p l : List Char)
    (h : p.isPrefixOf l = false) : lit p l = none := by
  match hm : lit p l with
  | none => rfl
  | some r =>
    rw [lit_eq_some_iff] at hm
    subst hm
    have h2 : ¬ (p <+: p ++ r) := by
      simp only [← List.isPrefixOf_iff_prefix, h]
      exact Bool.false_ne_true
    exact absurd (List.prefix_append p r) h2

theorem graphOf_none_of_not_pre (l : List Char)
    (h : ("graph".data.isPrefixOf l) = false) : graphOf l = none := by
  simp [graphOf, lit_none_of_not_pre _ _ h, Option.bind]

theorem componentOf_none_of_not_pre (l : List Char)
    (h : ("component".data.isPrefixOf l) = false) : componentOf l = none := by
  simp [componentOf, lit_none_of_not_pre _ _ h, Option.bind]

theorem connectOf_none_of_not_pre (l : List Char)
    (h : ("connect".data.isPrefixOf l) = false) : connectOf l = none := by
  simp [connectOf, lit_none_of_not_pre _ _ h, Option.bind]

theorem paramOf_none_of_not_pre (l : List Char)
    (h : ("parameter".data.isPrefixOf l) = false) : paramOf l = none := by
  simp [paramOf, lit_none_of_not_pre _ _ h, Option.bind]

/-- A no-shape line leaves the whole extraction state untouched. -/
theorem step_skip (st : ParseState) (raw : String)
    (h : noMatch (pstrip raw.data)) : processLine st raw = st := by
  obtain ⟨g, cur⟩ := st
  obtain ⟨h1, h2, h3, h4⟩ := h
  simp only [processLine, h1, h2, h3, h4]
  cases cur <;> split_ifs <;> rfl

theorem processLines_append (st : ParseState) (a b : List String) :
    processLines st (a ++ b) = processLines (processLines st a) b :=
  List.foldl_append _ _ _ _

theorem processLines_cons (st : ParseState) (l : String) (rest : List String) :
    processLines st (l :: rest) = processLines (processLine st l) rest := rfl

/-- Effect of one line on the `graph_name` field: the graph branch
rewrites it to the capture when the graph pattern matches, every other
path leaves it unchanged. -/
theorem step_name (st : ParseState) (raw : String) :
    (processLine st raw).graph.graph_name =
      ((graphOf (pstrip raw.data)).getD st.graph.graph_name) := by
  obtain ⟨g, cur⟩ := st
  simp only [processLine]
  cases hg : ("graph".data.isPrefixOf (pstrip raw.data)) with
  | true =>
    cases hm : graphOf (pstrip raw.data) <;> simp [hm]
  | false =>
    rw [graphOf_none_of_not_pre _ hg]
    simp only [Bool.false_eq_true, if_false, Option.getD_none]
    split_ifs <;>
      cases hc2 : componentOf (pstrip raw.data) <;>
      cases hp2 : paramOf (pstrip raw.data) <;>
      cases hn2 : connectOf (pstrip raw.data) <;>
      cases cur <;>
      simp_all

/-- The `graph_name` reached by folding any line list from any state:
the capture of the last matching graph line, or the incoming name. -/
theorem processLines_name (lines : List String) : ∀ st : ParseState,
    (processLines st lines).graph.graph_name =
      ((lines.reverse.findSome? (fun l => graphOf (pstrip l.data))).getD
        st.graph.graph_name) := by
  induction lines with
  | nil => intro st; simp [processLines]
  | cons l rest ih =>
    intro st
    rw [processLines_cons, ih, List.reverse_cons, List.findSome?_append]
    cases hr : rest.reverse.findSome? (fun l => graphOf (pstrip l.data)) with
    | some v => simp [Option.or]
    | none =>
      simp only [Option.or, step_name]
      cases hl : graphOf (pstrip l.data) <;> simp [List.findSome?, hl]

/-! ## Characterization of the build phase of `topological_sort` -/

theorem bump_eq_none_iff (k : String) : ∀ ind : List (String × Int),
    bump ind k = none ↔ k ∉ ind.map Prod.fst := by
  intro ind
  induction ind with
  | nil => simp [bump]
  | cons hd tl ih =>
    obtain ⟨a, v⟩ := hd
    rcases eq_or_ne a k with hak | hak
    · subst hak; simp [bump]
    · simp [bump, hak, Ne.symm hak, ih, Option.map_eq_none']

theorem bump_keys (k : String) : ∀ ind ind' : List (String × Int),
    bump ind k = some ind' → ind'.map Prod.fst = ind.map Prod.fst := by
  intro ind
  induction ind with
  | nil => intro ind' h; simp [bump] at h
  | cons hd tl ih =>
    obtain ⟨a, v⟩ := hd
    intro ind' h
    rcases eq_or_ne a k with hak | hak
    · subst hak
      simp only [bump, eq_self_iff_true, if_true, Option.some.injEq] at h
      subst h; simp
    · simp only [bump, if_neg hak, Option.map_eq_some'] at h
      obtain ⟨r, hr, hind⟩ := h
      subst hind
      simp [ih r hr]

theorem buildIndeg_isSome_iff : ∀ (es : List (String × String))
    (ind : List (String × Int)),
    (buildIndeg ind es).isSome ↔ ∀ e ∈ es, e.2 ∈ ind.map Prod.fst := by
  intro es
  induction es with
  | nil => intro ind; simp [buildIndeg]
  | cons e rest ih =>
    intro ind
    obtain ⟨s, d⟩ := e
    simp only [buildIndeg]
    cases hb : bump ind d with
    | none =>
      rw [bump_eq_none_iff] at hb
      simp only [Option.none_bind, Option.isSome_none, Bool.false_eq_true,
        false_iff]
      intro hall
      exact hb (by simpa using hall (s, d) (List.mem_cons_self _ _))
    | some ind1 =>
      have hk := bump_keys d ind ind1 hb
      have hd : d ∈ ind.map Prod.fst := by
        by_contra hcon
        rw [← bump_eq_none_iff] at hcon
        rw [hb] at hcon; exact Option.noConfusion hcon
      simp only [Option.some_bind, ih ind1, hk, List.mem_cons]
      constructor
      · intro h e he
        rcases he with he | he
        · subst he; exact hd
        · exact h e he
      · intro h e he
        exact h e (Or.inr he)

theorem topological_sort_eq_none_iff (nodes : List String)
    (edges : List (String × String)) :
    topological_sort nodes edges = none ↔ ∃ e ∈ edges, e.2 ∉ nodes := by
  have hiff := buildIndeg_isSome_iff edges (nodes.map (fun n => (n, 0)))
  have hkeys : (nodes.map (fun n => (n, (0 : Int)))).map Prod.fst = nodes := by
    simp [Function.comp_def]
  rw [hkeys] at hiff
  unfold topological_sort
  cases hb : buildIndeg (nodes.map (fun n => (n, 0))) edges with
  | none =>
    rw [hb] at hiff
    simp only [Option.isSome_none, Bool.false_eq_true, false_iff, not_forall] at hiff
    simpa using hiff
  | some ind =>
    rw [hb] at hiff
    simp only [Option.isSome_some, true_iff] at hiff
    constructor
    · intro h; exact Option.noConfusion h
    · rintro ⟨e, he, hmem⟩
      exact absurd (hiff e he) hmem

theorem topological_sort_length (nodes : List String)
    (edges : List (String × String)) (l : List String) :
    topological_sort nodes edges = some l → l.length = nodes.length := by
  unfold topological_sort
  cases hb : buildIndeg (nodes.map (fun n => (n, 0))) edges with
  | none => intro h; exact Option.noConfusion h
  | some ind =>
    intro h
    simp only [Option.some.injEq] at h
    subst h
    split_ifs with hlen
    · exact hlen
    · rfl

/-! ## Claims -/

/-- **C1, counterexample.**  The claim says `order` is total on every
model, including ones whose edges name undeclared components on either
endpoint.  On the model with the single declared component `A` and the
edge `A → Ghost`, the in-degree increment `indeg["Ghost"] += 1` hits a
key absent from the plain dict `indeg` and raises `KeyError` — the
analyzer returns no sequence at all. -/
theorem claim1_counterexample :
    orderModel ⟨"", [("A", ⟨"input_table", []⟩)], [("A", "Ghost")]⟩ = none := by
  decide

/-- **C1 (amended).**  `order(model)` returns a sequence if and only if
every edge's *target* is a declared component (undeclared *sources* are
tolerated), and whenever it returns, the length of the returned
sequence equals the number of declared components. -/
theorem claim1_order_total_amended (g : GraphModel) :
    ((orderModel g).isSome ↔ ∀ e ∈ g.connections, e.2 ∈ nodesOf g) ∧
    (∀ l, orderModel g = some l → l.length = g.components.length) := by
  constructor
  · rw [Option.isSome_iff_ne_none, ne_eq, orderModel,
      topological_sort_eq_none_iff]
    push_neg
    rfl
  · intro l hl
    have := topological_sort_length (nodesOf g) g.connections l hl
    simpa [nodesOf] using this

/-- **C1 witness**: the amended theorem applied to the sample model. -/
theorem claim1_witness :
    (["Read_Customers", "Filter_Active"] : List String).length =
      sampleModel.components.length :=
  (claim1_order_total_amended sampleModel).2 _ (by decide)

/-- **C4.**  A line matching none of the four statement shapes —
including a line that starts with a recognised keyword but is malformed
— is skipped outright: deleting it from the input leaves the extracted
model unchanged, so its presence never prevents later lines from being
processed normally.  (Totality of the extractor is inherent in the
embedding: `parse_mp` is a total function on line sequences; per line
the source only pattern-matches, and a failed match falls through.) -/
theorem claim4_extractor_skips (pre suf : List String) (junk : String)
    (h : noMatch (pstrip junk.data)) :
    parse_mp (pre ++ junk :: suf) = parse_mp (pre ++ suf) := by
  unfold parse_mp
  rw [processLines_append, processLines_append, processLines_cons,
    step_skip _ _ h]

/-- **C4 witness**: a malformed component line (recognised keyword, bad
shape) between a graph line and a connect line changes nothing. -/
theorem claim4_witness :
    parse_mp ["graph \"G\"", "component \"Broken\" from \"X\"",
      "connect \"A\" to \"B\""] =
    parse_mp ["graph \"G\"", "connect \"A\" to \"B\""] :=
  claim4_extractor_skips ["graph \"G\""] ["connect \"A\" to \"B\""]
    "component \"Broken\" from \"X\"" (by decide)

/-- **C8.**  The successor lookup of `build_doc`
(`[dst for src, dst in connections if src == comp]`) equals, for every
model and every name — declared or not — the spec's pure filter of the
edge list by source, preserving edge-declaration order; and on the
spec's dangling-edge scenario the lookup for the undeclared `Ghost`
returns `["Read_Customers"]`.  The lookup reads only the edge list, so
it cannot raise and cannot depend on whether the overall ordering fell
back to declaration order. -/
theorem claim8_successor_lookup :
    (∀ (g : GraphModel) (n : String),
      flow_targets g.connections n = successorLookupSpec g n) ∧
    flow_targets
      [("Read_Customers", "Filter_Active"), ("Ghost", "Read_Customers")]
      "Ghost" = ["Read_Customers"] := by
  constructor
  · intro g n
    unfold successorLookupSpec
    induction g.connections with
    | nil => rfl
    | cons e rest ih =>
      obtain ⟨src, dst⟩ := e
      by_cases h : src = n
      · subst h
        simp [flow_targets, List.filter_cons, ih]
      · simp [flow_targets, List.filter_cons, h, ih]
  · decide

/-- **C9.**  The extracted `name` equals the capture of the *last* line
matching the graph-declaration shape (later rewrites overwrite the
field), and is the empty string when no line matches — which is not an
error: extraction still yields a model. -/
theorem claim9_graph_name_last (lines : List String) :
    (parse_mp lines).graph_name = lastGraphName lines := by
  unfold parse_mp lastGraphName
  rw [processLines_name]
  rfl

/-- **C10.**  Processing a single line that matches none of the four
statement patterns is the identity on the whole extraction state —
graph name, components map (every type and parameter), edge list, and
the current-component cursor.  In particular a malformed `component`
line does not end the previous component's receiving window: the lines
after it are processed from the identical state, so a following
parameter line attaches exactly as it would have without the junk
line. -/
theorem claim10_junk_line_frame (st : ParseState) (raw : String)
    (rest : List String) (h : noMatch (pstrip raw.data)) :
    processLine st raw = st ∧
    processLines st (raw :: rest) = processLines st rest := by
  refine ⟨step_skip st raw h, ?_⟩
  rw [processLines_cons, step_skip st raw h]

/-- **C10 witness**: from a state currently receiving into `A`, the
malformed line `component "Broken" from "X"` changes nothing, and the
following parameter line still lands in `A`. -/
theorem claim10_witness :
    processLine ⟨⟨"", [("A", ⟨"filter", []⟩)], []⟩, some "A"⟩
      "component \"Broken\" from \"X\"" =
      ⟨⟨"", [("A", ⟨"filter", []⟩)], []⟩, some "A"⟩ ∧
    processLines ⟨⟨"", [("A", ⟨"filter", []⟩)], []⟩, some "A"⟩
      ["component \"Broken\" from \"X\"", "parameter \"k\" = \"v\""] =
    processLines ⟨⟨"", [("A", ⟨"filter", []⟩)], []⟩, some "A"⟩
      ["parameter \"k\" = \"v\""] :=
  claim10_junk_line_frame _ _ _ (by decide)

/-! ## Character-level facts for the title-case humanization -/

theorem char_toNat_ofNat (n : Nat) (h : n.isValidChar) :
    (Char.ofNat n).toNat = n := by
  unfold Char.ofNat
  rw [dif_pos h]
  rfl

theorem char_isAlpha_iff (c : Char) : c.isAlpha = true ↔
    (65 ≤ c.toNat ∧ c.toNat ≤ 90) ∨ (97 ≤ c.toNat ∧ c.toNat ≤ 122) := by
  unfold Char.isAlpha Char.isUpper Char.isLower
  simp only [Bool.or_eq_true, Bool.and_eq_true, decide_eq_true_eq]
  constructor
  · rintro (⟨h1, h2⟩ | ⟨h1, h2⟩)
    · left; exact ⟨h1, h2⟩
    · right; exact ⟨h1, h2⟩
  · rintro (⟨h1, h2⟩ | ⟨h1, h2⟩)
    · left; exact ⟨h1, h2⟩
    · right; exact ⟨h1, h2⟩

theorem char_toUpper_toNat (c : Char) : (c.toUpper).toNat =
    if 97 ≤ c.toNat ∧ c.toNat ≤ 122 then c.toNat - 32 else c.toNat := by
  show (if c.toNat ≥ 97 ∧ c.toNat ≤ 122 then
    Char.ofNat (c.toNat - 32) else c).toNat = _
  split_ifs with h
  · exact char_toNat_ofNat _ (by left; omega)
  · rfl

theorem char_toLower_toNat (c : Char) : (c.toLower).toNat =
    if 65 ≤ c.toNat ∧ c.toNat ≤ 90 then c.toNat + 32 else c.toNat := by
  show (if c.toNat ≥ 65 ∧ c.toNat ≤ 90 then
    Char.ofNat (c.toNat + 32) else c).toNat = _
  split_ifs with h
  · exact char_toNat_ofNat _ (by left; omega)
  · rfl

/-- Uppercasing never produces a lowercase `'a'`. -/
theorem char_toUpper_ne_a (c : Char) : c.toUpper ≠ 'a' := by
  intro h
  have h2 : (c.toUpper).toNat = 97 := by rw [h]; rfl
  rw [char_toUpper_toNat] at h2
  split_ifs at h2 <;> omega

theorem char_isAlpha_toUpper (c : Char) (h : c.isAlpha = true) :
    (c.toUpper).isAlpha = true := by
  rw [char_isAlpha_iff] at h ⊢
  rw [char_toUpper_toNat]
  split_ifs with hr <;> omega

theorem char_isAlpha_toLower (c : Char) (h : c.isAlpha = true) :
    (c.toLower).isAlpha = true := by
  rw [char_isAlpha_iff] at h ⊢
  rw [char_toLower_toNat]
  split_ifs with hr <;> omega

/-- In a title-cased string, the character following a non-letter is
never a lowercase `'a'`: Python's `str.title()` uppercases the first
letter of every word. -/
theorem titleChars_pair : ∀ (l : List Char) (prev : Bool) (i : Nat) (c1 : Char),
    (titleChars prev l).get? i = some c1 →
    (titleChars prev l).get? (i + 1) = some 'a' →
    c1.isAlpha = false → False := by
  intro l
  induction l with
  | nil =>
    intro prev i c1 h1 _ _
    simp [titleChars] at h1
  | cons c rest ih =>
    intro prev i c1 h1 h2 hna
    by_cases hc : c.isAlpha = true
    · simp only [titleChars, if_pos hc] at h1 h2
      match i with
      | 0 =>
        simp only [List.get?_cons_zero, Option.some.injEq] at h1
        subst h1
        cases prev with
        | true =>
          rw [if_pos rfl, char_isAlpha_toLower c hc] at hna
          exact Bool.noConfusion hna
        | false =>
          rw [if_neg Bool.false_ne_true, char_isAlpha_toUpper c hc] at hna
          exact Bool.noConfusion hna
      | i' + 1 =>
        simp only [List.get?_cons_succ] at h1 h2
        exact ih true i' c1 h1 h2 hna
    · have hc' : c.isAlpha = false := by
        cases hcv : c.isAlpha with
        | true => exact absurd hcv hc
        | false => rfl
      simp only [titleChars, hc', Bool.false_eq_true, if_false] at h1 h2
      match i with
      | 0 =>
        simp only [List.get?_cons_zero, Option.some.injEq] at h1
        simp only [List.get?_cons_succ] at h2
        match rest, h2 with
        | d :: rest', h2 =>
          simp only [titleChars] at h2
          by_cases hd : d.isAlpha = true
          · simp only [if_pos hd, List.get?_cons_zero, Option.some.injEq] at h2
            rw [if_neg Bool.false_ne_true] at h2
            exact char_toUpper_ne_a d h2
          · have hd' : d.isAlpha = false := by
              cases hdv : d.isAlpha with
              | true => exact absurd hdv hd
              | false => rfl
            simp only [hd', Bool.false_eq_true, if_false,
              List.get?_cons_zero, Option.some.injEq] at h2
            subst h2
            exact absurd hd' (by decide)
      | i' + 1 =>
        simp only [List.get?_cons_succ] at h1 h2
        exact ih false i' c1 h1 h2 hna

/-- The humanization output can never equal the type-fallback phrase:
that phrase contains the lowercase word `a` after a space, which
`str.title()` can never emit. -/
theorem titleStr_ne_typeFallback (p : String) : titleStr p ≠ typeFallback := by
  intro h
  have hd : titleChars false (underscoreToSpace p).data = typeFallback.data :=
    congrArg String.data h
  have h8 : (titleChars false (underscoreToSpace p).data).get? 8 = some ' ' := by
    rw [hd]; decide
  have h9 : (titleChars false (underscoreToSpace p).data).get? 9 = some 'a' := by
    rw [hd]; decide
  exact titleChars_pair _ false 8 ' ' h8 h9 (by decide)

theorem alookup_mem {β : Type} : ∀ (l : List (String × β)) (k : String) (v : β),
    alookup l k = some v → ∃ k', (k', v) ∈ l := by
  intro l
  induction l with
  | nil => intro k v h; exact Option.noConfusion h
  | cons hd tl ih =>
    obtain ⟨a, b⟩ := hd
    intro k v h
    by_cases hak : a = k
    · subst hak
      simp only [alookup] at h
      rw [if_pos trivial] at h
      have hv := Option.some.inj h
      subst hv
      exact ⟨a, List.mem_cons_self _ _⟩
    · simp only [alookup] at h
      rw [if_neg hak] at h
      obtain ⟨k', hk'⟩ := ih k v h
      exact ⟨k', List.mem_cons_of_mem _ hk'⟩

/-- `friendly_param` never returns the type-fallback phrase: neither
the synonym table's values nor the humanization can produce it. -/
theorem friendly_param_ne_typeFallback (p : String) :
    friendly_param p ≠ typeFallback := by
  unfold friendly_param
  cases hl : alookup PARAM_FRIENDLY (strLower p) with
  | none =>
    simp only [Option.getD_none]
    exact titleStr_ne_typeFallback p
  | some v =>
    obtain ⟨k', hmem⟩ := alookup_mem _ _ _ hl
    simp only [Option.getD_some]
    fin_cases hmem <;> decide

/-- For a type absent from the table (after lowercasing), no heuristic
"bit" fires either — each bit is guarded by a type that *is* in the
table — so the description is exactly the fallback phrase. -/
theorem describe_component_unknown (nm : String) (meta : Component)
    (h : alookup TYPE_DESCRIPTIONS (strLower meta.type) = none) :
    describe_component nm meta = typeFallback := by
  have h1 : strLower meta.type ≠ "input_table" := fun he => absurd (he ▸ h) (by decide)
  have h2 : strLower meta.type ≠ "input_file" := fun he => absurd (he ▸ h) (by decide)
  have h3 : strLower meta.type ≠ "output_table" := fun he => absurd (he ▸ h) (by decide)
  have h4 : strLower meta.type ≠ "output_file" := fun he => absurd (he ▸ h) (by decide)
  have h5 : strLower meta.type ≠ "filter" := fun he => absurd (he ▸ h) (by decide)
  have h6 : strLower meta.type ≠ "join" := fun he => absurd (he ▸ h) (by decide)
  simp only [describe_component]
  rw [h]
  simp only [Option.getD_none]
  rw [if_neg (fun hc => hc.elim h1 h2), if_neg (fun hc => hc.elim h3 h4),
    if_neg (fun hc => h5 hc.1), if_neg h6]
  rfl

/-- **C6, counterexample.**  The fallback phrase the code returns for
an unrecognised type is `"Performs a specialised data‑processing
step."` (capital `P`, British spelling, U+2011 hyphen, trailing
period), which is not the phrase `"performs a specialized
data-processing step"` quoted by the claim. -/
theorem claim6_counterexample :
    describe_component "X" ⟨"mystery_step", []⟩ =
      "Performs a specialised data‑processing step." ∧
    "Performs a specialised data‑processing step." ≠
      "performs a specialized data-processing step" := by
  constructor
  · decide
  · decide

/-- **C6 (amended).**  `describe_component` and `friendly_param` are
total pure lookups (totality and freedom from mutation are inherent in
the embedding: both are functions of their arguments over fixed
tables).  For every type not in the type table after lowercasing, the
description is exactly the single generic phrase `typeFallback`
(`"Performs a specialised data‑processing step."` — the claim's quoted
phrase corrected to the source's spelling), regardless of the
parameters.  For every parameter name not in the synonym table after
lowercasing, `friendly_param` returns the humanization — underscores
replaced by spaces, each word title-cased (`titleStr`) — and for
*every* name whatsoever the result is never the type-fallback
phrase. -/
theorem claim6_descriptor_amended :
    (∀ (nm : String) (meta : Component),
      alookup TYPE_DESCRIPTIONS (strLower meta.type) = none →
      describe_component nm meta = typeFallback) ∧
    (∀ p : String, alookup PARAM_FRIENDLY (strLower p) = none →
      friendly_param p = titleStr p) ∧
    (∀ p : String, friendly_param p ≠ typeFallback) := by
  refine ⟨describe_component_unknown, ?_, friendly_param_ne_typeFallback⟩
  intro p h
  unfold friendly_param
  rw [h]
  rfl

/-- **C6 witness**: the amended theorem at concrete unknown inputs. -/
theorem claim6_witness :
    describe_component "X" ⟨"weird_type", [("keys", "k")]⟩ = typeFallback ∧
    friendly_param "my_odd2name" = titleStr "my_odd2name" ∧
    friendly_param "filename" ≠ typeFallback :=
  ⟨claim6_descriptor_amended.1 "X" ⟨"weird_type", [("keys", "k")]⟩ (by decide),
   claim6_descriptor_amended.2.1 "my_odd2name" (by decide),
   claim6_descriptor_amended.2.2 "filename"⟩

/-! ## Symbolic evaluation of the parameter matcher (for C7) -/

theorem dropWhile_ws_eq_self (l : List Char)
    (h : ∀ c, l.head? = some c → isWS c = false) :
    l.dropWhile isWS = l := by
  cases l with
  | nil => rfl
  | cons c t => simp [List.dropWhile_cons, h c rfl]

theorem pstrip_eq_self (l : List Char)
    (hh : ∀ c, l.head? = some c → isWS c = false)
    (hl : ∀ c, l.getLast? = some c → isWS c = false) :
    pstrip l = l := by
  unfold pstrip
  rw [dropWhile_ws_eq_self l hh,
    dropWhile_ws_eq_self l.reverse
      (fun c hc => hl c (by rwa [List.head?_reverse] at hc)),
    List.reverse_reverse]

theorem splitsAtQuote_first (post : List Char) : ∀ pre, '"' ∉ pre →
    ∃ junk, splitsAtQuote (pre ++ '"' :: post) = (pre, post) :: junk := by
  intro pre
  induction pre with
  | nil =>
    intro _
    exact ⟨(splitsAtQuote post).map (fun p => ('"' :: p.1, p.2)),
      by simp [splitsAtQuote]⟩
  | cons d pre' ih =>
    intro hq
    have hd : ¬ d = '"' := fun h => hq (h ▸ List.mem_cons_self d pre')
    obtain ⟨junk, hj⟩ := ih (fun h => hq (List.mem_cons_of_mem _ h))
    exact ⟨junk.map (fun p => (d :: p.1, p.2)),
      by simp [splitsAtQuote, hd, hj]⟩

theorem quoteSplits_first (post : List Char) :
    ∀ nd : List Char, nd ≠ [] → '"' ∉ nd →
    ∃ junk, quoteSplits (nd ++ '"' :: post) = (nd, post) :: junk := by
  intro nd hn0 hnq
  match nd, hn0 with
  | c :: n', _ =>
    obtain ⟨junk, hj⟩ :=
      splitsAtQuote_first post n' (fun h => hnq (List.mem_cons_of_mem _ h))
    exact ⟨junk.map (fun p => (c :: p.1, p.2)), by simp [quoteSplits, hj]⟩

theorem tailOk_cons_false (c : Char) (rest : List Char)
    (h1 : c ≠ '"') (h2 : c ≠ ';') : tailOk (c :: rest) = false := by
  simp [tailOk, h1, h2]

theorem lazyValue_append (t : List Char) (ht : tailOk t = true) :
    ∀ w, (∀ ch ∈ w, ch ≠ '"' ∧ ch ≠ ';') → lazyValue (w ++ t) = w := by
  intro w
  induction w with
  | nil =>
    intro _
    rw [List.nil_append, lazyValue.eq_def, if_pos ht]
  | cons ch w' ih =>
    intro hw
    have h1 := (hw ch (List.mem_cons_self _ _)).1
    have h2 := (hw ch (List.mem_cons_self _ _)).2
    rw [List.cons_append, lazyValue.eq_def,
      if_neg (by rw [tailOk_cons_false _ _ h1 h2]; exact Bool.false_ne_true)]
    show ch :: lazyValue (w' ++ t) = ch :: w'
    rw [ih (fun c hc => hw c (List.mem_cons_of_mem _ hc))]

theorem tailCapture_not_quote (c : Char) (u : List Char) (h : c ≠ '"') :
    tailCapture (c :: u) = lazyValue (c :: u) := by
  unfold tailCapture
  split
  · rename_i heq
    injection heq with hc _
    exact absurd hc h
  · rfl

theorem findSome?_cons_some {α β : Type} (f : α → Option β) (a : α)
    (l : List α) (b : β) (h : f a = some b) :
    (a :: l).findSome? f = some b := by
  simp [List.findSome?_cons, h]

/-- The parameter pattern on any line of the shape
`parameter "<nd>" = <mid>` (one space on each side of `=`), with a
sane name: it matches and captures the name and the lazy value of
`mid`. -/
theorem paramOf_shape (nd mid : List Char) (hn0 : nd ≠ []) (hnq : '"' ∉ nd)
    (hmid : mid.dropWhile isWS = mid) :
    paramOf ("parameter".data ++
        ' ' :: '"' :: (nd ++ '"' :: ' ' :: '=' :: ' ' :: mid)) =
      some (String.mk nd, String.mk (tailCapture mid)) := by
  have h1 : lit "parameter".data ("parameter".data ++
      ' ' :: '"' :: (nd ++ '"' :: ' ' :: '=' :: ' ' :: mid)) =
      some (' ' :: '"' :: (nd ++ '"' :: ' ' :: '=' :: ' ' :: mid)) :=
    (lit_eq_some_iff _ _ _).mpr rfl
  obtain ⟨junk, hj⟩ := quoteSplits_first (' ' :: '=' :: ' ' :: mid) nd hn0 hnq
  have hw1 : wsPlus (' ' :: '"' :: (nd ++ '"' :: ' ' :: '=' :: ' ' :: mid)) =
      some ('"' :: (nd ++ '"' :: ' ' :: '=' :: ' ' :: mid)) := by
    simp [wsPlus, isWS, List.dropWhile_cons]
  have hhead : (do
      let r1 ← wsPlus (' ' :: '=' :: ' ' :: mid)
      let r2 ← lit "=".data r1
      let r3 ← wsPlus r2
      some (String.mk nd, String.mk (tailCapture r3))) =
      some (String.mk nd, String.mk (tailCapture mid)) := by
    rw [show wsPlus (' ' :: '=' :: ' ' :: mid) = some ('=' :: ' ' :: mid) from by
      simp [wsPlus, isWS, List.dropWhile_cons]]
    simp only [Option.bind_eq_bind, Option.some_bind]
    rw [show lit "=".data ('=' :: ' ' :: mid) = some (' ' :: mid) from
      (lit_eq_some_iff _ _ _).mpr rfl]
    simp only [Option.some_bind]
    rw [show wsPlus (' ' :: mid) = some mid from by simp [wsPlus, isWS, hmid]]
    simp only [Option.some_bind]
  simp only [paramOf, Option.bind_eq_bind, h1, Option.some_bind, hw1, hj]
  exact findSome?_cons_some _ _ _ _ hhead

theorem data_ne_nil (s : String) (h : s ≠ "") : s.data ≠ [] := by
  intro hd
  apply h
  cases s
  simp_all

theorem alookup_upsert_self {β : Type} (k : String) (v : β) :
    ∀ l : List (String × β), alookup (upsert l k v) k = some v := by
  intro l
  induction l with
  | nil => simp [upsert, alookup]
  | cons hd tl ih =>
    obtain ⟨a, b⟩ := hd
    by_cases hak : a = k
    · subst hak; simp [upsert, alookup]
    · simp [upsert, alookup, hak, ih]

theorem alookup_setParam_self (cur p v : String) :
    ∀ (comps : List (String × Component)) (comp : Component),
    alookup comps cur = some comp →
    alookup (setParam comps cur p v) cur =
      some ⟨comp.type, upsert comp.parameters p v⟩ := by
  intro comps
  induction comps with
  | nil => intro comp h; exact Option.noConfusion h
  | cons hd tl ih =>
    obtain ⟨a, b⟩ := hd
    intro comp h
    by_cases hak : a = cur
    · subst hak
      simp only [alookup] at h
      rw [if_pos trivial] at h
      have hb := Option.some.inj h
      subst hb
      simp [setParam, alookup]
    · simp only [alookup] at h
      rw [if_neg hak] at h
      simp [setParam, alookup, hak, ih _ h]

/-- One line whose stripped text is a `parameter` statement that the
pattern accepts, processed while a current component exists, updates
exactly that component's parameter map. -/
theorem processLine_param_step (st : ParseState) (cur : String) (raw : String)
    (n v : String) (rest : List Char)
    (hline : pstrip raw.data = "parameter".data ++ rest)
    (hm : paramOf ("parameter".data ++ rest) = some (n, v))
    (hcur : st.current = some cur) (hc0 : cur ≠ "") :
    processLine st raw = { st with graph := { st.graph with
      components := setParam st.graph.components cur n v } } := by
  have hg : "graph".data.isPrefixOf (pstrip raw.data) = false := by
    rw [hline]; rfl
  have hc : "component".data.isPrefixOf (pstrip raw.data) = false := by
    rw [hline]; rfl
  have hp : "parameter".data.isPrefixOf (pstrip raw.data) = true := by
    rw [hline]
    simp [List.isPrefixOf_iff_prefix]
  have htr : currentTruthy (some cur) = true := by
    simp [currentTruthy, hc0]
  have hm2 : paramOf (pstrip raw.data) = some (n, v) := by rw [hline]; exact hm
  simp only [processLine, hg, hc, hp, htr, Bool.false_eq_true, if_false,
    Bool.true_and, Bool.and_self, if_true, hcur, hm2]

theorem mk_data (s : String) : String.mk s.data = s := by cases s; rfl

theorem opt_all_not_ws (o : Option Char)
    (h : o.all (fun ch => !isWS ch) = true) :
    ∀ c, o = some c → isWS c = false := by
  intro c hc
  subst hc
  simpa using h

/-- **C7, counterexample.**  The claim quantifies over every value `v`
free of quotes and semicolons; at `v = ""` the fourth variant
`parameter "n" = v` becomes `parameter "k" = `, whose trailing
whitespace `strip()` removes, after which `=\s+` cannot match: the
line is skipped and no parameter is set (the claim requires it to set
`k` to the empty value as the quoted variants do). -/
theorem claim7_counterexample :
    ("parameter \"" ++ "k" ++ "\" = " ++ "" : String) = "parameter \"k\" = " ∧
    paramOf (pstrip ("parameter \"k\" = " : String).data) = none ∧
    processLines initState
      ["component \"A\" of \"X\"", "parameter \"k\" = "] =
    processLines initState ["component \"A\" of \"X\""] := by
  refine ⟨by decide, by decide, by decide⟩

/-- **C7 (amended).**  For every parameter name `n` (nonempty, without
double quotes) and value `v` (nonempty, without double quotes or
semicolons, not starting or ending in whitespace), the four statement
variants `parameter "n" = "v";`, `parameter "n" = "v"`,
`parameter "n" = v;` and `parameter "n" = v`, processed while a
current component exists, produce the identical state: the current
component's parameter `n` is set to the same value `v` (quotes and
trailing semicolon stripped). -/
theorem claim7_parameter_variants_amended
    (st : ParseState) (cur : String) (comp : Component) (n v : String)
    (hcur : st.current = some cur) (hc0 : cur ≠ "")
    (hcomp : alookup st.graph.components cur = some comp)
    (hn0 : n ≠ "") (hnq : '"' ∉ n.data)
    (hv0 : v ≠ "") (hvq : '"' ∉ v.data) (hvs : ';' ∉ v.data)
    (hvh : v.data.head?.all (fun ch => !isWS ch) = true)
    (hvl : v.data.getLast?.all (fun ch => !isWS ch) = true) :
    (∀ L ∈ ["parameter \"" ++ n ++ "\" = \"" ++ v ++ "\";",
            "parameter \"" ++ n ++ "\" = \"" ++ v ++ "\"",
            "parameter \"" ++ n ++ "\" = " ++ v ++ ";",
            "parameter \"" ++ n ++ "\" = " ++ v],
      processLine st L = { st with graph := { st.graph with
        components := setParam st.graph.components cur n v } }) ∧
    alookup (setParam st.graph.components cur n v) cur =
      some ⟨comp.type, upsert comp.parameters n v⟩ ∧
    alookup (upsert comp.parameters n v) n = some v := by
  have hvd : v.data ≠ [] := data_ne_nil v hv0
  obtain ⟨vc, vw, hvdd⟩ : ∃ c w, v.data = c :: w := by
    cases hv : v.data with
    | nil => exact absurd hv hvd
    | cons c w => exact ⟨c, w, rfl⟩
  have hvchars : ∀ ch ∈ v.data, ch ≠ '"' ∧ ch ≠ ';' :=
    fun ch hch => ⟨fun h => hvq (h ▸ hch), fun h => hvs (h ▸ hch)⟩
  have hvcns : isWS vc = false :=
    opt_all_not_ws _ hvh vc (by rw [hvdd]; rfl)
  -- lazy value captures for the four `mid` shapes
  have tc1 : tailCapture ('"' :: (v.data ++ ['"', ';'])) = v.data := by
    show lazyValue (v.data ++ ['"', ';']) = v.data
    exact lazyValue_append _ (by decide) _ hvchars
  have tc2 : tailCapture ('"' :: (v.data ++ ['"'])) = v.data := by
    show lazyValue (v.data ++ ['"']) = v.data
    exact lazyValue_append _ (by decide) _ hvchars
  have tc3 : tailCapture (v.data ++ [';']) = v.data := by
    rw [hvdd, List.cons_append,
      tailCapture_not_quote vc _ (hvchars vc (by rw [hvdd]; exact List.mem_cons_self _ _)).1,
      ← List.cons_append, ← hvdd]
    exact lazyValue_append _ (by decide) _ hvchars
  have tc4 : tailCapture v.data = v.data := by
    have h := lazyValue_append [] (by decide) v.data hvchars
    rw [List.append_nil] at h
    rw [hvdd] at h ⊢
    rw [tailCapture_not_quote vc _
      (hvchars vc (by rw [hvdd]; exact List.mem_cons_self _ _)).1]
    exact h
  -- the value parts never begin with whitespace
  have hmid1 : ('"' :: (v.data ++ ['"', ';'])).dropWhile isWS =
      '"' :: (v.data ++ ['"', ';']) := by
    simp [List.dropWhile_cons, isWS]
  have hmid2 : ('"' :: (v.data ++ ['"'])).dropWhile isWS =
      '"' :: (v.data ++ ['"']) := by
    simp [List.dropWhile_cons, isWS]
  have hmid3 : (v.data ++ [';']).dropWhile isWS = v.data ++ [';'] := by
    rw [hvdd, List.cons_append]
    simp [List.dropWhile_cons, hvcns]
  have hmid4 : v.data.dropWhile isWS = v.data := by
    rw [hvdd]
    simp [List.dropWhile_cons, hvcns]
  -- the matcher accepts all four shapes with the same captures
  have hm1 := paramOf_shape n.data ('"' :: (v.data ++ ['"', ';']))
    (data_ne_nil n hn0) hnq hmid1
  have hm2 := paramOf_shape n.data ('"' :: (v.data ++ ['"']))
    (data_ne_nil n hn0) hnq hmid2
  have hm3 := paramOf_shape n.data (v.data ++ [';'])
    (data_ne_nil n hn0) hnq hmid3
  have hm4 := paramOf_shape n.data v.data
    (data_ne_nil n hn0) hnq hmid4
  rw [tc1, mk_data, mk_data] at hm1
  rw [tc2, mk_data, mk_data] at hm2
  rw [tc3, mk_data, mk_data] at hm3
  rw [tc4, mk_data, mk_data] at hm4
  -- the raw lines decompose into the matcher's shape
  have hdata1 : ("parameter \"" ++ n ++ "\" = \"" ++ v ++ "\";").data =
      "parameter".data ++ ' ' :: '"' ::
        (n.data ++ '"' :: ' ' :: '=' :: ' ' :: ('"' :: (v.data ++ ['"', ';']))) := by
    rw [show ("parameter \"" ++ n ++ "\" = \"" ++ v ++ "\";").data =
      (("parameter \"" : String).data ++ n.data ++
        ("\" = \"" : String).data ++ v.data ++ ("\";" : String).data) from rfl]
    simp [List.append_assoc]
  have hdata2 : ("parameter \"" ++ n ++ "\" = \"" ++ v ++ "\"").data =
      "parameter".data ++ ' ' :: '"' ::
        (n.data ++ '"' :: ' ' :: '=' :: ' ' :: ('"' :: (v.data ++ ['"']))) := by
    rw [show ("parameter \"" ++ n ++ "\" = \"" ++ v ++ "\"").data =
      (("parameter \"" : String).data ++ n.data ++
        ("\" = \"" : String).data ++ v.data ++ ("\"" : String).data) from rfl]
    simp [List.append_assoc]
  have hdata3 : ("parameter \"" ++ n ++ "\" = " ++ v ++ ";").data =
      "parameter".data ++ ' ' :: '"' ::
        (n.data ++ '"' :: ' ' :: '=' :: ' ' :: (v.data ++ [';'])) := by
    rw [show ("parameter \"" ++ n ++ "\" = " ++ v ++ ";").data =
      (("parameter \"" : String).data ++ n.data ++
        ("\" = " : String).data ++ v.data ++ (";" : String).data) from rfl]
    simp [List.append_assoc]
  have hdata4 : ("parameter \"" ++ n ++ "\" = " ++ v).data =
      "parameter".data ++ ' ' :: '"' ::
        (n.data ++ '"' :: ' ' :: '=' :: ' ' :: v.data) := by
    rw [show ("parameter \"" ++ n ++ "\" = " ++ v).data =
      (("parameter \"" : String).data ++ n.data ++
        ("\" = " : String).data ++ v.data) from rfl]
    simp [List.append_assoc]
  -- stripping is the identity on all four lines
  have hstrip1 : pstrip ("parameter \"" ++ n ++ "\" = \"" ++ v ++ "\";").data =
      ("parameter \"" ++ n ++ "\" = \"" ++ v ++ "\";").data := by
    apply pstrip_eq_self
    · intro c hc
      rw [hdata1] at hc
      injection hc with h2
      subst h2; decide
    · intro c hc
      rw [show ("parameter \"" ++ n ++ "\" = \"" ++ v ++ "\";").data =
        ("parameter \"" ++ n ++ "\" = \"" ++ v).data ++ ("\";" : String).data
        from rfl, List.getLast?_append_of_ne_nil _ (by decide)] at hc
      injection hc with h2
      subst h2; decide
  have hstrip2 : pstrip ("parameter \"" ++ n ++ "\" = \"" ++ v ++ "\"").data =
      ("parameter \"" ++ n ++ "\" = \"" ++ v ++ "\"").data := by
    apply pstrip_eq_self
    · intro c hc
      rw [hdata2] at hc
      injection hc with h2
      subst h2; decide
    · intro c hc
      rw [show ("parameter \"" ++ n ++ "\" = \"" ++ v ++ "\"").data =
        ("parameter \"" ++ n ++ "\" = \"" ++ v).data ++ ("\"" : String).data
        from rfl, List.getLast?_append_of_ne_nil _ (by decide)] at hc
      injection hc with h2
      subst h2; decide
  have hstrip3 : pstrip ("parameter \"" ++ n ++ "\" = " ++ v ++ ";").data =
      ("parameter \"" ++ n ++ "\" = " ++ v ++ ";").data := by
    apply pstrip_eq_self
    · intro c hc
      rw [hdata3] at hc
      injection hc with h2
      subst h2; decide
    · intro c hc
      rw [show ("parameter \"" ++ n ++ "\" = " ++ v ++ ";").data =
        ("parameter \"" ++ n ++ "\" = " ++ v).data ++ (";" : String).data
        from rfl, List.getLast?_append_of_ne_nil _ (by decide)] at hc
      injection hc with h2
      subst h2; decide
  have hstrip4 : pstrip ("parameter \"" ++ n ++ "\" = " ++ v).data =
      ("parameter \"" ++ n ++ "\" = " ++ v).data := by
    apply pstrip_eq_self
    · intro c hc
      rw [hdata4] at hc
      injection hc with h2
      subst h2; decide
    · intro c hc
      rw [show ("parameter \"" ++ n ++ "\" = " ++ v).data =
        ("parameter \"" ++ n ++ "\" = ").data ++ v.data from rfl,
        List.getLast?_append_of_ne_nil _ hvd] at hc
      exact opt_all_not_ws _ hvl c hc
  refine ⟨?_, alookup_setParam_self cur n v st.graph.components comp hcomp,
    alookup_upsert_self n v comp.parameters⟩
  intro L hL
  simp only [List.mem_cons, List.not_mem_nil, or_false] at hL
  rcases hL with hL | hL | hL | hL
  · subst hL
    exact processLine_param_step st cur _ n v _ (hstrip1.trans hdata1) hm1 hcur hc0
  · subst hL
    exact processLine_param_step st cur _ n v _ (hstrip2.trans hdata2) hm2 hcur hc0
  · subst hL
    exact processLine_param_step st cur _ n v _ (hstrip3.trans hdata3) hm3 hcur hc0
  · subst hL
    exact processLine_param_step st cur _ n v _ (hstrip4.trans hdata4) hm4 hcur hc0

/-- **C7 witness**: the amended theorem applied with
`n = "filename"`, `v = "customers.dat"` in a state receiving into
`A`, on the fully-quoted and the bare variants. -/
theorem claim7_witness :
    processLine ⟨⟨"", [("A", ⟨"input_table", []⟩)], []⟩, some "A"⟩
        ("parameter \"" ++ "filename" ++ "\" = \"" ++ "customers.dat" ++ "\";") =
      ⟨⟨"", setParam [("A", ⟨"input_table", []⟩)] "A" "filename" "customers.dat",
        []⟩, some "A"⟩ ∧
    processLine ⟨⟨"", [("A", ⟨"input_table", []⟩)], []⟩, some "A"⟩
        ("parameter \"" ++ "filename" ++ "\" = " ++ "customers.dat") =
      ⟨⟨"", setParam [("A", ⟨"input_table", []⟩)] "A" "filename" "customers.dat",
        []⟩, some "A"⟩ ∧
    alookup (setParam [("A", ⟨"input_table", []⟩)] "A" "filename" "customers.dat")
        "A" = some ⟨"input_table", upsert [] "filename" "customers.dat"⟩ := by
  have h := claim7_parameter_variants_amended
    ⟨⟨"", [("A", ⟨"input_table", []⟩)], []⟩, some "A"⟩ "A" ⟨"input_table", []⟩
    "filename" "customers.dat" rfl (by decide) (by decide) (by decide)
    (by decide) (by decide) (by decide) (by decide) (by decide) (by decide)
  exact ⟨h.1 _ (by simp), h.1 _ (by simp), h.2.1⟩

theorem alookup_upsert_ne {β : Type} (k k' : String) (v : β) (hne : k ≠ k') :
    ∀ l : List (String × β), alookup (upsert l k v) k' = alookup l k' := by
  intro l
  induction l with
  | nil => simp [upsert, alookup, hne]
  | cons hd tl ih =>
    obtain ⟨a, b⟩ := hd
    by_cases hak : a = k
    · subst hak
      simp only [upsert, if_pos trivial, alookup]
      rw [if_neg hne, if_neg hne]
    · simp only [upsert, if_neg hak, alookup]
      by_cases hak' : a = k'
      · rw [if_pos hak', if_pos hak']
      · rw [if_neg hak', if_neg hak', ih]

theorem alookup_setParam_ne (cur k p v : String) (hne : cur ≠ k) :
    ∀ comps : List (String × Component),
    alookup (setParam comps cur p v) k = alookup comps k := by
  intro comps
  induction comps with
  | nil => simp [setParam, alookup]
  | cons hd tl ih =>
    obtain ⟨a, b⟩ := hd
    by_cases hac : a = cur
    · subst hac
      simp only [setParam, if_pos trivial, alookup]
      rw [if_neg hne, if_neg hne]
    · simp only [setParam, if_neg hac, alookup]
      by_cases hak : a = k
      · rw [if_pos hak, if_pos hak]
      · rw [if_neg hak, if_neg hak, ih]

theorem mem_upsert {β : Type} (k : String) (v : β) (x : String × β) :
    ∀ l : List (String × β), x ∈ upsert l k v → x = (k, v) ∨ x ∈ l := by
  intro l
  induction l with
  | nil =>
    intro h
    simp [upsert] at h
    exact Or.inl h
  | cons hd tl ih =>
    obtain ⟨a, b⟩ := hd
    intro h
    by_cases hak : a = k
    · subst hak
      simp only [upsert, if_pos trivial, List.mem_cons] at h
      rcases h with h | h
      · exact Or.inl h
      · exact Or.inr (List.mem_cons_of_mem _ h)
    · simp only [upsert, if_neg hak, List.mem_cons] at h
      rcases h with h | h
      · exact Or.inr (h ▸ List.mem_cons_self _ _)
      · rcases ih h with h2 | h2
        · exact Or.inl h2
        · exact Or.inr (List.mem_cons_of_mem _ h2)

theorem keys_setParam (cur p v : String) :
    ∀ comps : List (String × Component),
    (setParam comps cur p v).map Prod.fst = comps.map Prod.fst := by
  intro comps
  induction comps with
  | nil => rfl
  | cons hd tl ih =>
    obtain ⟨a, b⟩ := hd
    by_cases hac : a = cur
    · subst hac; simp [setParam]
    · simp [setParam, hac, ih]

theorem keys_upsert {β : Type} (k : String) (v : β) :
    ∀ l : List (String × β),
    (upsert l k v).map Prod.fst =
      if k ∈ l.map Prod.fst then l.map Prod.fst else l.map Prod.fst ++ [k] := by
  intro l
  induction l with
  | nil => simp [upsert]
  | cons hd tl ih =>
    obtain ⟨a, b⟩ := hd
    by_cases hak : a = k
    · subst hak
      simp [upsert]
    · simp only [upsert, if_neg hak, List.map_cons, ih]
      by_cases hmem : k ∈ tl.map Prod.fst
      · rw [if_pos hmem, if_pos (by simp [hmem])]
      · rw [if_neg hmem,
          if_neg (by simp only [List.mem_cons]; rintro (h | h)
                     · exact hak h.symm
                     · exact hmem h)]
        simp

/-- Key uniqueness (the dict invariant) is preserved by one line. -/
theorem step_NK (st : ParseState) (raw : String)
    (h : (st.graph.components.map Prod.fst).Nodup) :
    (((processLine st raw).graph.components).map Prod.fst).Nodup := by
  obtain ⟨g, cur⟩ := st
  simp only [processLine]
  split_ifs <;>
    [skip; (cases hm : componentOf (pstrip raw.data) with
      | none => exact h
      | some nt =>
        obtain ⟨n, t⟩ := nt
        simp only
        rw [keys_upsert]
        split_ifs with hmem
        · exact h
        · rw [List.nodup_append]
          refine ⟨h, List.nodup_singleton n, ?_⟩
          intro x hx
          simp only [List.mem_singleton]
          intro hxa
          subst hxa
          exact hmem hx);
     skip; skip; exact h]
  · cases hm : graphOf (pstrip raw.data) <;> simp [hm, h]
  · cases cur with
    | none => exact h
    | some c =>
      cases hm : paramOf (pstrip raw.data) with
      | none => exact h
      | some pv =>
        obtain ⟨p, v⟩ := pv
        simp only
        rw [keys_setParam]
        exact h
  · cases hm : connectOf (pstrip raw.data) <;> simp [hm, h]

theorem processLines_NK (lines : List String) : ∀ st : ParseState,
    (st.graph.components.map Prod.fst).Nodup →
    (((processLines st lines).graph.components).map Prod.fst).Nodup := by
  induction lines with
  | nil => intro st h; exact h
  | cons l rest ih =>
    intro st h
    rw [processLines_cons]
    exact ih _ (step_NK st l h)

theorem countP_keys_zero (n : String) :
    ∀ comps : List (String × Component), n ∉ comps.map Prod.fst →
    comps.countP (fun p => p.1 == n) = 0 := by
  intro comps
  induction comps with
  | nil => intro _; rfl
  | cons hd tl ih =>
    obtain ⟨a, b⟩ := hd
    intro h
    have ha : ((a, b).1 == n) = false := by
      simp only [beq_eq_false_iff_ne, ne_eq]
      intro han
      exact h (by simp [han])
    rw [List.countP_cons, ha]
    simpa using ih (fun hmem => h (List.mem_cons_of_mem _ hmem))

theorem countKeys_eq_one (n : String) :
    ∀ comps : List (String × Component),
    (comps.map Prod.fst).Nodup → (alookup comps n).isSome →
    countKeys comps n = 1 := by
  intro comps
  induction comps with
  | nil => intro _ h; simp [alookup] at h
  | cons hd tl ih =>
    obtain ⟨a, b⟩ := hd
    intro hnd hsome
    by_cases hak : a = n
    · subst hak
      have ha : a ∉ tl.map Prod.fst := by
        simp only [List.map_cons, List.nodup_cons] at hnd
        exact hnd.1
      unfold countKeys
      rw [List.countP_cons, countP_keys_zero a tl ha]
      simp
    · unfold countKeys
      rw [List.countP_cons, show (((a, b).1 == n)) = false by simp [hak]]
      simp only [alookup, if_neg hak] at hsome
      have := ih (by simp only [List.map_cons, List.nodup_cons] at hnd; exact hnd.2)
        hsome
      simpa using this

/-- A recognised component declaration inserts the fresh component and
moves the cursor to it, whatever the prior state. -/
theorem processLine_component_step (st : ParseState) (raw : String)
    (n t : String) (hm : componentOf (pstrip raw.data) = some (n, t)) :
    processLine st raw =
      ⟨{ st.graph with components := upsert st.graph.components n ⟨t, []⟩ },
       some n⟩ := by
  obtain ⟨rest, hrest⟩ : ∃ r, pstrip raw.data = "component".data ++ r := by
    cases hlit : lit "component".data (pstrip raw.data) with
    | none => simp [componentOf, Option.bind_eq_bind, hlit] at hm
    | some r => exact ⟨r, (lit_eq_some_iff _ _ _).mp hlit⟩
  have hg : "graph".data.isPrefixOf (pstrip raw.data) = false := by
    rw [hrest]; rfl
  have hcp : "component".data.isPrefixOf (pstrip raw.data) = true := by
    rw [hrest]
    simp [List.isPrefixOf_iff_prefix]
  simp only [processLine, hg, Bool.false_eq_true, if_false, hcp, if_true, hm]

/-- Trichotomy of one line's effect on the components dict. -/
theorem step_components_cases (st : ParseState) (raw : String) :
    ((processLine st raw).graph.components = st.graph.components) ∨
    (∃ m t', componentOf (pstrip raw.data) = some (m, t') ∧
      (processLine st raw).graph.components =
        upsert st.graph.components m ⟨t', []⟩) ∨
    (∃ cur p v, st.current = some cur ∧
      paramOf (pstrip raw.data) = some (p, v) ∧
      (processLine st raw).graph.components =
        setParam st.graph.components cur p v) := by
  obtain ⟨g, cur⟩ := st
  simp only [processLine]
  split_ifs
  · cases hm : graphOf (pstrip raw.data) <;> simp [hm]
  · cases hm : componentOf (pstrip raw.data) with
    | none => simp [hm]
    | some nt =>
      obtain ⟨m, t'⟩ := nt
      exact Or.inr (Or.inl ⟨m, t', rfl, by simp [hm]⟩)
  · cases cur with
    | none => simp
    | some c =>
      cases hm : paramOf (pstrip raw.data) with
      | none => simp [hm]
      | some pv =>
        obtain ⟨p, v⟩ := pv
        exact Or.inr (Or.inr ⟨c, p, v, rfl, rfl, by simp⟩)
  · cases hm : connectOf (pstrip raw.data) <;> simp [hm]
  · simp

/-- Folding lines that never re-declare `n` keeps `n`'s entry: its type
survives and every parameter it ends with came either from the
incoming entry or from a parameter line among the folded lines. -/
theorem c5_aux (n t : String) : ∀ (post : List String) (st : ParseState)
    (c0 : Component),
    alookup st.graph.components n = some c0 → c0.type = t →
    (∀ l2 ∈ post, (componentOf (pstrip l2.data)).map Prod.fst ≠ some n) →
    ∃ c, alookup (processLines st post).graph.components n = some c ∧
      c.type = t ∧
      ∀ pv ∈ c.parameters, pv ∈ c0.parameters ∨
        ∃ l2 ∈ post, paramOf (pstrip l2.data) = some pv := by
  intro post
  induction post with
  | nil =>
    intro st c0 h0 ht _
    exact ⟨c0, h0, ht, fun pv hpv => Or.inl hpv⟩
  | cons l2 rest ih =>
    intro st c0 h0 ht hno
    rw [processLines_cons]
    rcases step_components_cases st l2 with hc | ⟨m, t', hm, hc⟩ |
      ⟨cur, p, v, hcur, hm, hc⟩
    · obtain ⟨c, h1, h2, h3⟩ := ih (processLine st l2) c0 (by rw [hc]; exact h0)
        ht (fun l3 h3 => hno l3 (List.mem_cons_of_mem _ h3))
      refine ⟨c, h1, h2, fun pv hpv => ?_⟩
      rcases h3 pv hpv with h | ⟨l3, hl3, hp3⟩
      · exact Or.inl h
      · exact Or.inr ⟨l3, List.mem_cons_of_mem _ hl3, hp3⟩
    · have hmn : m ≠ n := by
        intro he
        exact hno l2 (List.mem_cons_self _ _) (by rw [hm, he]; rfl)
      obtain ⟨c, h1, h2, h3⟩ := ih (processLine st l2) c0
        (by rw [hc, alookup_upsert_ne m n _ hmn]; exact h0)
        ht (fun l3 h3 => hno l3 (List.mem_cons_of_mem _ h3))
      refine ⟨c, h1, h2, fun pv hpv => ?_⟩
      rcases h3 pv hpv with h | ⟨l3, hl3, hp3⟩
      · exact Or.inl h
      · exact Or.inr ⟨l3, List.mem_cons_of_mem _ hl3, hp3⟩
    · by_cases hcn : cur = n
      · subst hcn
        obtain ⟨c, h1, h2, h3⟩ := ih (processLine st l2)
          ⟨c0.type, upsert c0.parameters p v⟩
          (by rw [hc]; exact alookup_setParam_self cur p v _ c0 h0)
          ht (fun l3 h3 => hno l3 (List.mem_cons_of_mem _ h3))
        refine ⟨c, h1, h2, fun pv hpv => ?_⟩
        rcases h3 pv hpv with h | ⟨l3, hl3, hp3⟩
        · rcases mem_upsert p v pv c0.parameters h with h2' | h2'
          · exact Or.inr ⟨l2, List.mem_cons_self _ _, by rw [hm, h2']⟩
          · exact Or.inl h2'
        · exact Or.inr ⟨l3, List.mem_cons_of_mem _ hl3, hp3⟩
      · obtain ⟨c, h1, h2, h3⟩ := ih (processLine st l2) c0
          (by rw [hc, alookup_setParam_ne cur n p v hcn]; exact h0)
          ht (fun l3 h3 => hno l3 (List.mem_cons_of_mem _ h3))
        refine ⟨c, h1, h2, fun pv hpv => ?_⟩
        rcases h3 pv hpv with h | ⟨l3, hl3, hp3⟩
        · exact Or.inl h
        · exact Or.inr ⟨l3, List.mem_cons_of_mem _ hl3, hp3⟩

/-- **C5.**  "Last declaration wins": if a component declaration for
`n` is processed and no later line re-declares `n`, then the final
components map has exactly one entry for `n`; its type is the one from
that (second) declaration; every parameter in its map was assigned by
a parameter line after that declaration — everything attached to the
first declaration is gone, because the declaration installed a fresh
empty parameter map; and immediately after the declaration `n` is the
current receiving component. -/
theorem claim5_last_declaration_wins
    (pre post : List String) (l : String) (n t : String)
    (hl : componentOf (pstrip l.data) = some (n, t))
    (hno : ∀ l2 ∈ post, (componentOf (pstrip l2.data)).map Prod.fst ≠ some n) :
    countKeys (processLines initState (pre ++ l :: post)).graph.components n
      = 1 ∧
    (∃ c, alookup
        (processLines initState (pre ++ l :: post)).graph.components n
        = some c ∧ c.type = t ∧
      ∀ pv ∈ c.parameters, ∃ l2 ∈ post, paramOf (pstrip l2.data) = some pv) ∧
    (processLines initState (pre ++ [l])).current = some n := by
  have hstep := processLine_component_step (processLines initState pre) l n t hl
  have hafter : alookup
      (processLines (processLines initState pre) [l]).graph.components n =
      some ⟨t, []⟩ := by
    rw [processLines_cons]
    show alookup (processLine (processLines initState pre) l).graph.components n
      = some ⟨t, []⟩
    rw [hstep]
    exact alookup_upsert_self n _ _
  have hsplit : processLines initState (pre ++ l :: post) =
      processLines (processLines (processLines initState pre) [l]) post := by
    rw [processLines_append]
    rfl
  obtain ⟨c, h1, h2, h3⟩ := c5_aux n t post
    (processLines (processLines initState pre) [l]) ⟨t, []⟩ hafter rfl hno
  refine ⟨?_, ⟨c, by rw [hsplit]; exact h1, h2, fun pv hpv => ?_⟩, ?_⟩
  · have hnk : (((processLines initState (pre ++ l :: post)).graph.components).map
        Prod.fst).Nodup :=
      processLines_NK _ initState (by simp [initState])
    apply countKeys_eq_one n _ hnk
    rw [hsplit, h1]
    rfl
  · rcases h3 pv hpv with h | h
    · exact absurd h (by simp)
    · exact h
  · rw [processLines_append]
    rw [processLines_cons]
    show (processLine (processLines initState pre) l).current = some n
    rw [hstep]

/-- Exact effect of the inner relaxation loop, under the invariant-side
condition that no key is decremented more often than its current
count: the in-degrees all drop by the number of occurrences, and the
queue gains exactly the keys whose count hits zero, each once. -/
theorem relax_spec (succs : List String) : ∀ (ind : List (String × Int))
    (q : List String),
    (∀ m v, alookup ind m = some v → (succs.count m : Int) ≤ v) →
    (∀ k, alookup (relax ind q succs).1 k =
      (alookup ind k).map (fun v => v - (succs.count k : Int))) ∧
    ∃ enq, (relax ind q succs).2 = q ++ enq ∧ enq.Nodup ∧
      (∀ m, m ∈ enq ↔ 0 < succs.count m ∧
        alookup ind m = some ((succs.count m : Int))) := by
  induction succs with
  | nil =>
    intro ind q _
    refine ⟨fun k => ?_, [], by simp [relax], List.nodup_nil, by simp⟩
    cases hx : alookup ind k <;> simp [relax, hx]
  | cons s rest ih =>
    intro ind q hbound
    have hbound' : ∀ m v, alookup (decr ind s) m = some v →
        (rest.count m : Int) ≤ v := by
      intro m v hm
      rw [alookup_decr] at hm
      by_cases hms : m = s
      · rw [if_pos hms] at hm
        subst hms
        cases hvo : alookup ind m with
        | none => rw [hvo] at hm; exact Option.noConfusion hm
        | some v0 =>
          rw [hvo] at hm
          simp only [Option.map_some'] at hm
          have hv0 : v0 - 1 = v := Option.some.inj hm
          have := hbound m v0 hvo
          rw [List.count_cons_self] at this
          push_cast at this
          omega
      · rw [if_neg hms] at hm
        have := hbound m v hm
        rw [List.count_cons_of_ne hms] at this
        exact this
    obtain ⟨hlook, enq1, hq1, hnd1, hmem1⟩ := ih (decr ind s)
      (if alookup (decr ind s) s = some 0 then q ++ [s] else q) hbound'
    constructor
    · intro k
      have h1 : relax ind q (s :: rest) =
          relax (decr ind s)
            (if alookup (decr ind s) s = some 0 then q ++ [s] else q) rest := rfl
      rw [h1, hlook k, alookup_decr]
      by_cases hks : k = s
      · subst hks
        cases hv : alookup ind k with
        | none => simp
        | some v =>
          rw [if_pos rfl]
          simp only [hv, Option.map_some', Option.some.injEq,
            List.count_cons_self]
          push_cast
          omega
      · rw [if_neg hks, List.count_cons_of_ne hks]
    · have h1 : relax ind q (s :: rest) =
          relax (decr ind s)
            (if alookup (decr ind s) s = some 0 then q ++ [s] else q) rest := rfl
      by_cases hz : alookup (decr ind s) s = some 0
      · -- s is enqueued now and cannot reappear later
        have hs1 : alookup ind s = some 1 := by
          rw [alookup_decr, if_pos rfl] at hz
          cases hv : alookup ind s with
          | none => rw [hv] at hz; exact Option.noConfusion hz
          | some v =>
            rw [hv] at hz
            simp only [Option.map_some'] at hz
            have := Option.some.inj hz
            have hv1 : v = 1 := by omega
            rw [hv1]
        have hrest0 : rest.count s = 0 := by
          have := hbound' s 0 hz
          omega
        refine ⟨s :: enq1, ?_, ?_, ?_⟩
        · rw [h1, hq1, if_pos hz, List.append_assoc]
          rfl
        · refine List.nodup_cons.mpr ⟨?_, hnd1⟩
          intro hmem
          have := (hmem1 s).mp hmem
          omega
        · intro m
          by_cases hms : m = s
          · subst hms
            simp only [List.mem_cons, true_or, true_iff]
            constructor
            · rw [List.count_cons_self]; omega
            · rw [List.count_cons_self, hrest0, hs1]
              norm_num
          · simp only [List.mem_cons, hms, false_or]
            rw [hmem1 m, List.count_cons_of_ne hms, alookup_decr, if_neg hms]
      · -- s is not enqueued at this step
        refine ⟨enq1, by rw [h1, hq1, if_neg hz], hnd1, ?_⟩
        intro m
        by_cases hms : m = s
        · subst hms
          rw [hmem1 m, alookup_decr, if_pos rfl, List.count_cons_self]
          cases hv : alookup ind m with
          | none => simp
          | some v =>
            simp only [Option.map_some', Option.some.injEq]
            constructor
            · rintro ⟨hpos, hvc⟩
              refine ⟨by omega, by push_cast; omega⟩
            · rintro ⟨_, hvc⟩
              have hvc1 : v = (rest.count m : Int) + 1 := by push_cast at hvc ⊢; omega
              have hne : ¬ ((v - 1 : Int) = 0) := by
                intro h0
                apply hz
                rw [alookup_decr, if_pos rfl, hv]
                simp only [Option.map_some']
                rw [h0]
              refine ⟨by omega, by omega⟩
        · rw [hmem1 m, alookup_decr, if_neg hms, List.count_cons_of_ne hms]

theorem countP_split {α : Type} (p q : α → Bool) : ∀ l : List α,
    l.countP p = l.countP (fun a => p a && q a) +
      l.countP (fun a => p a && !q a) := by
  intro l
  induction l with
  | nil => rfl
  | cons a t ih =>
    rw [List.countP_cons, List.countP_cons, List.countP_cons, ih]
    cases hp : p a <;> cases hq : q a <;> simp [hp, hq] <;> omega

theorem countP_congr_mem {α : Type} (p q : α → Bool) : ∀ l : List α,
    (∀ a ∈ l, p a = q a) → l.countP p = l.countP q := by
  intro l
  induction l with
  | nil => intro _; rfl
  | cons a t ih =>
    intro h
    rw [List.countP_cons, List.countP_cons,
      ih (fun x hx => h x (List.mem_cons_of_mem _ hx)),
      h a (List.mem_cons_self _ _)]

theorem count_outEdges (edges : List (String × String)) (n m : String) :
    (outEdges edges n).count m = edgeCnt edges n m := by
  show List.countP (· == m) (outEdges edges n) = _
  unfold outEdges edgeCnt
  rw [List.countP_map, List.countP_filter]
  rfl

/-- Emitting `n` removes exactly the `n → k` instances from the
remaining in-degree of `k`. -/
theorem remCount_snoc (edges : List (String × String)) (order : List String)
    (n k : String) (hn : n ∉ order) :
    remCount edges order k =
      remCount edges (order ++ [n]) k + edgeCnt edges n k := by
  unfold remCount edgeCnt
  rw [countP_split (fun e => e.2 == k && !(order.contains e.1))
    (fun e => e.1 == n) edges]
  have h1 : edges.countP
      (fun e => (e.2 == k && !(order.contains e.1)) && e.1 == n) =
      edges.countP (fun e => e.2 == k && e.1 == n) := by
    apply countP_congr_mem
    intro e _
    by_cases h2 : e.1 = n
    · rw [show (e.1 == n) = true from by simpa using h2]
      rw [show (order.contains e.1) = false from by rw [h2]; simpa using hn]
      simp
    · rw [show (e.1 == n) = false from by simpa using h2]
      simp
  have h2 : edges.countP
      (fun e => (e.2 == k && !(order.contains e.1)) && !(e.1 == n)) =
      edges.countP (fun e => e.2 == k && !((order ++ [n]).contains e.1)) := by
    apply countP_congr_mem
    intro e _
    by_cases h2 : e.1 = n
    · rw [show (e.1 == n) = true from by simpa using h2]
      rw [show ((order ++ [n]).contains e.1) = true from by simp [h2]]
      simp
    · have hc : ((order ++ [n]).contains e.1) = (order.contains e.1) := by
        by_cases hm : e.1 ∈ order
        · have ha : (order ++ [n]).contains e.1 = true := by simp [hm]
          have hb : order.contains e.1 = true := by simpa using hm
          rw [ha, hb]
        · have ha : (order ++ [n]).contains e.1 = false := by simp [hm, h2]
          have hb : order.contains e.1 = false := by simpa using hm
          rw [ha, hb]
      rw [hc, show (e.1 == n) = false from by simpa using h2]
      simp
  rw [h1, h2]
  omega

/-- Remaining in-degree only drops as the emitted prefix grows. -/
theorem remCount_mono (edges : List (String × String))
    (order ordbig : List String) (h : ∀ x ∈ order, x ∈ ordbig) (k : String) :
    remCount edges ordbig k ≤ remCount edges order k := by
  unfold remCount
  apply List.countP_mono_left
  intro e _ hp
  simp only [Bool.and_eq_true, beq_iff_eq, Bool.not_eq_true'] at hp ⊢
  obtain ⟨h1, h2⟩ := hp
  refine ⟨h1, ?_⟩
  have hnm : e.1 ∉ ordbig := by simpa using h2
  have : e.1 ∉ order := fun hc => hnm (h _ hc)
  simpa using this

theorem kinv_to_kout (edges : List (String × String)) (nodes : List String)
    (ind : List (String × Int)) (order : List String)
    (inv : KInv edges nodes ind [] order) : KOut edges nodes order := by
  have h := inv.nodup
  have hs := inv.sub
  have hz := inv.zero
  have hc := inv.complete
  simp only [List.append_nil] at h hs hz hc
  exact ⟨h, hs, hz, hc, inv.sound⟩

/-- In a relational chain `a :: l`, every element of `l` has an
immediate predecessor somewhere in `a :: l`. -/
theorem chain_pred_general {α : Type} (r : α → α → Prop) :
    ∀ (l : List α) (a : α), List.Chain r a l →
      ∀ x ∈ l, ∃ u ∈ a :: l, r u x := by
  intro l
  induction l with
  | nil => intro a _ x hx; simp at hx
  | cons b t ih =>
    intro a hch x hx
    obtain ⟨hab, hbt⟩ := List.chain_cons.mp hch
    rcases List.mem_cons.mp hx with rfl | hx
    · exact ⟨a, List.mem_cons_self _ _, hab⟩
    · obtain ⟨u, hu, hr⟩ := ih b hbt x hx
      exact ⟨u, List.mem_cons_of_mem a hu, hr⟩

/-- On a closed walk `a, p…, a`, every visited node has a predecessor
among the visited nodes. -/
theorem cycle_pred {α : Type} (r : α → α → Prop) (a : α) (p : List α)
    (hchain : List.Chain r a (p ++ [a])) :
    ∀ x ∈ a :: p, ∃ u ∈ a :: p, r u x := by
  intro x hx
  have hx2 : x ∈ p ++ [a] := by
    rcases List.mem_cons.mp hx with rfl | hx
    · exact List.mem_append_right _ (List.mem_singleton.mpr rfl)
    · exact List.mem_append_left _ hx
  obtain ⟨u, hu, hr⟩ := chain_pred_general r (p ++ [a]) a hchain x hx2
  refine ⟨u, ?_, hr⟩
  rcases List.mem_cons.mp hu with rfl | hu
  · exact List.mem_cons_self _ _
  · rcases List.mem_append.mp hu with hu | hu
    · exact List.mem_cons_of_mem _ hu
    · rw [List.mem_singleton.mp hu]; exact List.mem_cons_self _ _

/-- A chain ending in `b` relates something to `b`. -/
theorem chain_last {α : Type} (r : α → α → Prop) :
    ∀ (l : List α) (a b : α), List.Chain r a (l ++ [b]) → ∃ u, r u b := by
  intro l
  induction l with
  | nil =>
    intro a b h
    rw [List.nil_append] at h
    obtain ⟨hr, _⟩ := List.chain_cons.mp h
    exact ⟨a, hr⟩
  | cons c t ih =>
    intro a b h
    rw [List.cons_append] at h
    obtain ⟨_, hrest⟩ := List.chain_cons.mp h
    exact ih c b hrest

/-- A single edge between two distinct nodes admits no closed walk. -/
theorem noCycle_single (x y : String) (hxy : x ≠ y) :
    ¬ HasCycle [(x, y)] := by
  rintro ⟨a, p, hchain⟩
  cases p with
  | nil =>
    rw [List.nil_append] at hchain
    obtain ⟨hr, _⟩ := List.chain_cons.mp hchain
    simp only [List.mem_singleton, Prod.mk.injEq] at hr
    exact hxy (by rw [← hr.1, hr.2])
  | cons b t =>
    rw [List.cons_append] at hchain
    obtain ⟨hr1, hrest⟩ := List.chain_cons.mp hchain
    simp only [List.mem_singleton, Prod.mk.injEq] at hr1
    obtain ⟨u, hu⟩ := chain_last (fun u v => (u, v) ∈ [(x, y)]) t b a hrest
    simp only [List.mem_singleton, Prod.mk.injEq] at hu
    exact hxy (by rw [← hr1.1, hu.2])

theorem chainDesc_chain (edges : List (String × String)) (f : String → String)
    (x : String) (hrel : ∀ d, (f^[d + 1] x, f^[d] x) ∈ edges) :
    ∀ d, List.Chain (fun u v => (u, v) ∈ edges) (f^[d] x) (chainDesc f d x) := by
  intro d
  induction d with
  | zero => exact List.Chain.nil
  | succ d ih =>
    show List.Chain _ (f^[d + 1] x) (f^[d] x :: chainDesc f d x)
    exact List.Chain.cons (hrel d) ih

theorem chainDesc_last (f : String → String) (x : String) :
    ∀ d, 1 ≤ d → ∃ p, chainDesc f d x = p ++ [x] := by
  intro d
  induction d with
  | zero => intro h; omega
  | succ d ih =>
    intro _
    by_cases hd : 1 ≤ d
    · obtain ⟨p, hp⟩ := ih hd
      exact ⟨f^[d] x :: p, by simp [chainDesc, hp]⟩
    · have hd0 : d = 0 := by omega
      subst hd0
      exact ⟨[], by simp [chainDesc]⟩

/-- One iteration of the Kahn loop preserves the invariant: popping
the head `n`, emitting it, and relaxing its successors. -/
theorem kinv_step (edges : List (String × String)) (nodes : List String)
    (ind : List (String × Int)) (n : String) (q1 order : List String)
    (inv : KInv edges nodes ind (n :: q1) order) :
    KInv edges nodes (relax ind q1 (outEdges edges n)).1
      (relax ind q1 (outEdges edges n)).2 (order ++ [n]) := by
  have hn_not : n ∉ order := by
    have h := inv.nodup
    rw [List.nodup_append] at h
    exact fun hmem => h.2.2 hmem (List.mem_cons_self n q1)
  have hn_zero : remCount edges order n = 0 := inv.zero n (by simp)
  have hside : ∀ m v, alookup ind m = some v →
      (((outEdges edges n).count m : Int)) ≤ v := by
    intro m v hv
    rw [inv.look m] at hv
    by_cases hm : m ∈ nodes
    · rw [if_pos hm] at hv
      have hv2 := Option.some.inj hv
      rw [count_outEdges edges n m]
      have hsnoc := remCount_snoc edges order n m hn_not
      omega
    · rw [if_neg hm] at hv
      exact Option.noConfusion hv
  obtain ⟨hlook2, enq, henq, hnd_enq, hmem_enq⟩ :=
    relax_spec (outEdges edges n) ind q1 hside
  have henq_mem : ∀ m ∈ enq, m ∈ nodes ∧
      remCount edges order m = edgeCnt edges n m ∧
      0 < edgeCnt edges n m ∧ remCount edges (order ++ [n]) m = 0 := by
    intro m hm
    obtain ⟨hpos, hvm⟩ := (hmem_enq m).mp hm
    rw [count_outEdges edges n m] at hpos hvm
    have hmn : m ∈ nodes := by
      by_contra hc
      rw [inv.look m, if_neg hc] at hvm
      exact Option.noConfusion hvm
    rw [inv.look m, if_pos hmn] at hvm
    have hv := Option.some.inj hvm
    have hrc : remCount edges order m = edgeCnt edges n m := by exact_mod_cast hv
    have hsnoc := remCount_snoc edges order n m hn_not
    exact ⟨hmn, hrc, hpos, by omega⟩
  have hrearr : (order ++ [n]) ++ (q1 ++ enq) = (order ++ n :: q1) ++ enq := by
    simp
  refine ⟨?_, ?_, ?_, ?_, ?_, ?_⟩
  · intro k
    rw [hlook2 k, inv.look k]
    by_cases hk : k ∈ nodes
    · rw [if_pos hk, if_pos hk]
      simp only [Option.map_some', Option.some.injEq]
      rw [count_outEdges edges n k]
      have hsnoc := remCount_snoc edges order n k hn_not
      omega
    · rw [if_neg hk, if_neg hk]; rfl
  · rw [henq, hrearr]
    rw [List.nodup_append]
    refine ⟨inv.nodup, hnd_enq, ?_⟩
    intro a ha hae
    have h1 := inv.zero a ha
    have h2 := (henq_mem a hae).2.1
    have h3 := (henq_mem a hae).2.2.1
    omega
  · intro x hx
    rw [henq, hrearr] at hx
    rcases List.mem_append.mp hx with hx | hx
    · exact inv.sub x hx
    · exact (henq_mem x hx).1
  · intro x hx
    rw [henq, hrearr] at hx
    rcases List.mem_append.mp hx with hx | hx
    · have h1 := inv.zero x hx
      have h2 := remCount_mono edges order (order ++ [n])
        (fun y hy => List.mem_append_left _ hy) x
      omega
    · exact (henq_mem x hx).2.2.2
  · intro x hx hz
    rw [henq, hrearr]
    by_cases hzold : remCount edges order x = 0
    · exact List.mem_append_left _ (inv.complete x hx hzold)
    · refine List.mem_append_right _ ((hmem_enq x).mpr ⟨?_, ?_⟩)
      · rw [count_outEdges edges n x]
        have hsnoc := remCount_snoc edges order n x hn_not
        omega
      · rw [inv.look x, if_pos hx, count_outEdges edges n x]
        have hsnoc := remCount_snoc edges order n x hn_not
        have hrc : remCount edges order x = edgeCnt edges n x := by omega
        rw [hrc]
  · intro e he j hj
    by_cases hjlen : j < order.length
    · rw [List.get?_append hjlen] at hj
      obtain ⟨i, hi_lt, hi⟩ := inv.sound e he j hj
      have hilen : i < order.length := by omega
      exact ⟨i, hi_lt, by rw [List.get?_append hilen]; exact hi⟩
    · push_neg at hjlen
      rw [List.get?_append_right hjlen] at hj
      have hj0 : j - order.length = 0 := by
        by_contra hc
        have h1 : 1 ≤ j - order.length := by omega
        have : ([n] : List String).get? (j - order.length) = none := by
          apply List.get?_eq_none.mpr
          simpa using h1
        rw [this] at hj
        exact Option.noConfusion hj
      rw [hj0] at hj
      have he2 : e.2 = n := by
        have := Option.some.inj hj
        simp only [List.get?] at hj
        exact (Option.some.inj hj).symm
      have he1 : e.1 ∈ order := by
        by_contra hc
        have hp : (fun e => e.2 == n && !(order.contains e.1)) e = true := by
          simp only [Bool.and_eq_true, beq_iff_eq, Bool.not_eq_true']
          refine ⟨he2, ?_⟩
          simpa using hc
        have hpos : 0 < remCount edges order n := by
          unfold remCount
          exact List.countP_pos.mpr ⟨e, he, hp⟩
        omega
      obtain ⟨i, hi⟩ := List.get?_of_mem he1
      have hilen : i < order.length := by
        by_contra hc
        push_neg at hc
        rw [List.get?_eq_none.mpr hc] at hi
        exact Option.noConfusion hi
      refine ⟨i, by omega, ?_⟩
      rw [List.get?_append hilen]
      exact hi

/-- Running the loop from any invariant state with enough fuel lands
in an output state. -/
theorem kahn_master (edges : List (String × String)) (nodes : List String) :
    ∀ (fuel : Nat) (ind : List (String × Int)) (q order : List String),
      q.length + sumPos ind ≤ fuel →
      KInv edges nodes ind q order →
      KOut edges nodes (kahnAux edges fuel ind q order) := by
  intro fuel
  induction fuel with
  | zero =>
    intro ind q order hle inv
    match q with
    | [] =>
      rw [kahnAux_nil]
      exact kinv_to_kout edges nodes ind order inv
    | n :: q1 => simp at hle
  | succ f ih =>
    intro ind q order hle inv
    match q with
    | [] =>
      rw [kahnAux_nil]
      exact kinv_to_kout edges nodes ind order inv
    | n :: q1 =>
      simp only [kahnAux]
      have hm := relax_measure (outEdges edges n) ind q1
      simp only [List.length_cons] at hle
      exact ih _ _ _ (by omega) (kinv_step edges nodes ind n q1 order inv)

/-- Looking a key up in the all-zeroes initial in-degree table. -/
theorem alookup_init (nodes : List String) (k : String) :
    alookup (nodes.map (fun n => (n, (0 : Int)))) k =
      if k ∈ nodes then some 0 else none := by
  induction nodes with
  | nil => simp [alookup]
  | cons a rest ih =>
    by_cases hak : a = k
    · subst hak
      simp [alookup]
    · simp only [List.map_cons, alookup, if_neg hak, ih, List.mem_cons]
      rcases eq_or_ne k a with hka | hka
      · exact absurd hka.symm hak
      · simp [hka]

/-- `indeg[d] += 1` bumps exactly the looked-up value of `d`. -/
theorem bump_lookup (d : String) : ∀ (ind ind2 : List (String × Int)),
    bump ind d = some ind2 → ∀ k, alookup ind2 k =
      if k = d then (alookup ind k).map (fun v => v + 1) else alookup ind k := by
  intro ind
  induction ind with
  | nil => intro ind2 h; simp [bump] at h
  | cons hd tl ih =>
    obtain ⟨a, v⟩ := hd
    intro ind2 h k
    by_cases had : a = d
    · subst had
      have hb2 : bump ((a, v) :: tl) a = some ((a, v + 1) :: tl) := by
        simp [bump]
      rw [hb2] at h
      have h2 := Option.some.inj h
      subst h2
      by_cases hka : k = a
      · subst hka
        simp [alookup]
      · have hak : ¬ a = k := fun hc => hka hc.symm
        simp [alookup, hka, hak]
    · simp only [bump, if_neg had, Option.map_eq_some'] at h
      obtain ⟨r, hr, hind⟩ := h
      subst hind
      by_cases hka : k = a
      · subst hka
        simp [alookup, had]
      · have hak3 : ¬ a = k := fun hc => hka hc.symm
        simp only [alookup, if_neg hak3]
        exact ih r hr k

/-- The edge pass adds, to each key, the number of edges targeting it. -/
theorem buildIndeg_look : ∀ (es : List (String × String))
    (ind ind2 : List (String × Int)), buildIndeg ind es = some ind2 →
    ∀ k, alookup ind2 k = (alookup ind k).map
      (fun v => v + ((es.countP (fun e => e.2 == k) : Int))) := by
  intro es
  induction es with
  | nil =>
    intro ind ind2 h k
    simp only [buildIndeg, Option.some.injEq] at h
    subst h
    cases alookup ind k <;> simp
  | cons e rest ih =>
    intro ind ind2 h k
    simp only [buildIndeg] at h
    cases hb : bump ind e.2 with
    | none => rw [hb] at h; simp at h
    | some ind1 =>
      rw [hb, Option.some_bind] at h
      rw [ih ind1 ind2 h k, bump_lookup e.2 ind ind1 hb k, List.countP_cons]
      by_cases hke : k = e.2
      · rw [if_pos hke]
        have hbe : (e.2 == k) = true := by simp [hke]
        rw [hbe]
        cases alookup ind k with
        | none => simp
        | some v =>
          simp only [Option.map_some', Option.some.injEq]
          push_cast
          ring
      · rw [if_neg hke]
        have hbe : (e.2 == k) = false := by
          simp only [beq_eq_false_iff_ne, ne_eq]
          exact fun hc => hke hc.symm
        rw [hbe]
        simp

/-- With nothing emitted, the remaining in-degree is the full count of
edges into the key. -/
theorem remCount_nil (edges : List (String × String)) (k : String) :
    remCount edges [] k = edges.countP (fun e => e.2 == k) := by
  unfold remCount
  apply countP_congr_mem
  intro e _
  simp

/-- The invariant holds at loop entry. -/
theorem kinv_init (edges : List (String × String)) (nodes : List String)
    (hnd : nodes.Nodup) (ind : List (String × Int))
    (hb : buildIndeg (nodes.map (fun n => (n, 0))) edges = some ind) :
    KInv edges nodes ind
      (nodes.filter (fun n => decide (alookup ind n = some 0))) [] := by
  have hlook : ∀ k, alookup ind k =
      if k ∈ nodes then some ((remCount edges [] k : Int)) else none := by
    intro k
    rw [buildIndeg_look edges _ ind hb k, alookup_init nodes k]
    by_cases hk : k ∈ nodes
    · rw [if_pos hk, if_pos hk]
      simp [remCount_nil]
    · rw [if_neg hk, if_neg hk]; rfl
  refine ⟨hlook, ?_, ?_, ?_, ?_, ?_⟩
  · simpa using hnd.filter _
  · intro x hx
    rw [List.nil_append] at hx
    exact (List.mem_filter.mp hx).1
  · intro x hx
    rw [List.nil_append] at hx
    obtain ⟨hxn, hxz⟩ := List.mem_filter.mp hx
    have h0 : alookup ind x = some 0 := of_decide_eq_true hxz
    rw [hlook x, if_pos hxn] at h0
    have h1 := Option.some.inj h0
    exact_mod_cast h1
  · intro x hx hz
    rw [List.nil_append]
    refine List.mem_filter.mpr ⟨hx, decide_eq_true ?_⟩
    rw [hlook x, if_pos hx, hz]
    rfl
  · intro e _ j hj
    simp at hj

/-- The whole analyzer run: on any node list without duplicate keys
whose edge targets are all declared, the Kahn phase produces a `KOut`
order and the function returns it, or the declaration order if it is
not full. -/
theorem topological_sort_kout (nodes : List String)
    (edges : List (String × String)) (hnd : nodes.Nodup)
    (htgt : ∀ e ∈ edges, e.2 ∈ nodes) :
    ∃ ord, KOut edges nodes ord ∧ topological_sort nodes edges =
      some (if ord.length = nodes.length then ord else nodes) := by
  have hkeys : (nodes.map (fun n => (n, (0 : Int)))).map Prod.fst = nodes := by
    simp [Function.comp_def]
  have hsome : (buildIndeg (nodes.map (fun n => (n, 0))) edges).isSome := by
    rw [buildIndeg_isSome_iff, hkeys]
    exact htgt
  obtain ⟨ind, hb⟩ := Option.isSome_iff_exists.mp hsome
  refine ⟨kahnLoop edges ind
    (nodes.filter (fun n => decide (alookup ind n = some 0))) [], ?_, ?_⟩
  · unfold kahnLoop
    exact kahn_master edges nodes _ ind _ [] le_rfl
      (kinv_init edges nodes hnd ind hb)
  · unfold topological_sort
    rw [hb]

/-- If the edge relation is acyclic and every edge endpoint is
declared, the loop's output order covers every declared node: a node
left out would start an infinite predecessor descent through left-out
nodes, which the pigeonhole principle closes into a cycle. -/
theorem kout_complete_of_acyclic (nodes : List String)
    (edges : List (String × String)) (ord : List String)
    (hend : ∀ e ∈ edges, e.1 ∈ nodes ∧ e.2 ∈ nodes)
    (hnc : ¬ HasCycle edges) (hout : KOut edges nodes ord) :
    ∀ x ∈ nodes, x ∈ ord := by
  by_contra hcon
  push_neg at hcon
  obtain ⟨x0, hx0n, hx0o⟩ := hcon
  set S : String → Prop := fun x => x ∈ nodes ∧ x ∉ ord with hS
  set f : String → String := fun x =>
    ((edges.find? (fun e => e.2 == x && !(ord.contains e.1))).map
      Prod.fst).getD x with hf
  have hstep : ∀ x, S x → S (f x) ∧ (f x, x) ∈ edges := by
    intro x hx
    have hrc : remCount edges ord x ≠ 0 := by
      intro h0
      exact hx.2 (hout.complete x hx.1 h0)
    have hex : ∃ e ∈ edges, (fun e => e.2 == x && !(ord.contains e.1)) e := by
      rcases Nat.pos_of_ne_zero hrc with hpos
      exact List.countP_pos.mp hpos
    have hfs : (edges.find? (fun e => e.2 == x && !(ord.contains e.1))).isSome := by
      rw [List.find?_isSome]
      exact hex
    obtain ⟨e, he⟩ := Option.isSome_iff_exists.mp hfs
    have hmem : e ∈ edges := List.mem_of_find?_eq_some he
    have hpe := List.find?_some he
    simp only [Bool.and_eq_true, beq_iff_eq, Bool.not_eq_true'] at hpe
    have hfx : f x = e.1 := by
      rw [hf]
      simp only [he, Option.map_some', Option.getD_some]
    have he1o : e.1 ∉ ord := by simpa using hpe.2
    refine ⟨⟨?_, ?_⟩, ?_⟩
    · rw [hfx]; exact (hend e hmem).1
    · rw [hfx]; exact he1o
    · rw [hfx, ← hpe.1]
      exact hmem
  have hiter : ∀ d, S (f^[d] x0) := by
    intro d
    induction d with
    | zero => exact ⟨hx0n, hx0o⟩
    | succ d ih =>
      rw [Function.iterate_succ_apply']
      exact (hstep _ ih).1
  have hmaps : ∀ k ∈ Finset.range (nodes.length + 1),
      f^[k] x0 ∈ nodes.toFinset :=
    fun k _ => List.mem_toFinset.mpr (hiter k).1
  have hcard : nodes.toFinset.card < (Finset.range (nodes.length + 1)).card := by
    rw [Finset.card_range]
    have := List.toFinset_card_le nodes
    omega
  obtain ⟨i, _, j, _, hij, hfeq⟩ :=
    Finset.exists_ne_map_eq_of_card_lt_of_maps_to hcard hmaps
  obtain ⟨i, j, hlt, heq⟩ : ∃ i j, i < j ∧ f^[i] x0 = f^[j] x0 := by
    rcases Nat.lt_or_ge i j with hij2 | hij2
    · exact ⟨i, j, hij2, hfeq⟩
    · have : j < i := by omega
      exact ⟨j, i, this, hfeq.symm⟩
  apply hnc
  set x := f^[i] x0 with hx
  have hclose : f^[j - i] x = x := by
    rw [hx, ← Function.iterate_add_apply, Nat.sub_add_cancel (le_of_lt hlt)]
    exact heq.symm
  have hrel : ∀ d, (f^[d + 1] x, f^[d] x) ∈ edges := by
    intro d
    have hSd : S (f^[d] x) := by
      rw [hx, ← Function.iterate_add_apply]
      exact hiter (d + i)
    rw [Function.iterate_succ_apply']
    exact (hstep _ hSd).2
  obtain ⟨p, hp⟩ := chainDesc_last f x (j - i) (by omega)
  refine ⟨x, p, ?_⟩
  have hch := chainDesc_chain edges f x hrel (j - i)
  rw [hclose, hp] at hch
  exact hch

/-- If some list of edges contained in the graph admits a closed walk
whose nodes are all declared, no `KOut` order can cover all declared
nodes: the earliest-emitted walk node would need an even earlier
predecessor. -/
theorem no_full_order_of_cycle (edges cedges : List (String × String))
    (nodes ord : List String)
    (hsub : ∀ e ∈ cedges, e ∈ edges)
    (hend : ∀ e ∈ cedges, e.2 ∈ nodes)
    (hcyc : HasCycle cedges) (hout : KOut edges nodes ord)
    (hall : ∀ x ∈ nodes, x ∈ ord) : False := by
  obtain ⟨a, p, hchain⟩ := hcyc
  have hpred := cycle_pred (fun u v => (u, v) ∈ cedges) a p hchain
  have hWord : ∀ x ∈ a :: p, x ∈ ord := by
    intro x hx
    obtain ⟨u, _, hu⟩ := hpred x hx
    exact hall x (hend (u, x) hu)
  have hP : ∃ n, ∃ x ∈ a :: p, ord.get? n = some x := by
    obtain ⟨n, hn⟩ := List.get?_of_mem (hWord a (List.mem_cons_self a p))
    exact ⟨n, a, List.mem_cons_self a p, hn⟩
  obtain ⟨x, hxW, hxn⟩ := Nat.find_spec hP
  obtain ⟨u, huW, hu_edge⟩ := hpred x hxW
  obtain ⟨i, hi_lt, hi⟩ :=
    hout.sound (u, x) (hsub (u, x) hu_edge) (Nat.find hP) hxn
  exact Nat.find_min hP hi_lt ⟨u, huW, hi⟩

/-- **C2, counterexample.**  The claim promises a valid topological
order whenever the induced subgraph on declared components is acyclic,
for *every* model.  On `acyclicFallbackModel` (declared `B` then `A`;
edges `G → A` with undeclared source `G`, and `A → B`), the induced
subgraph is the single acyclic edge `A → B`, yet `A` keeps the
in-degree contributed by the undeclared `G`, the Kahn phase emits
nothing, and the function falls back to declaration order `[B, A]` —
in which the declared edge `A → B` runs backwards. -/
theorem claim2_counterexample :
    ¬ HasCycle (inducedEdges acyclicFallbackModel) ∧
    orderModel acyclicFallbackModel = some ["B", "A"] ∧
    ¬ ∃ i j, i < j ∧ (["B", "A"] : List String).get? i = some "A" ∧
      (["B", "A"] : List String).get? j = some "B" := by
  refine ⟨?_, by decide, ?_⟩
  · rw [show inducedEdges acyclicFallbackModel = [("A", "B")] from by decide]
    exact noCycle_single _ _ (by decide)
  · rintro ⟨i, j, hij, hi, hj⟩
    have hi1 : i = 1 := by
      match i with
      | 0 => exact absurd hi (by decide)
      | 1 => rfl
      | n + 2 => simp [List.get?] at hi
    have hj0 : j = 0 := by
      match j with
      | 0 => rfl
      | 1 => exact absurd hj (by decide)
      | n + 2 => simp [List.get?] at hj
    omega

/-- **C2 (amended).**  On a model whose component keys are distinct (a
dict invariant of the extractor) and **all of whose edge endpoints —
sources included — are declared**, acyclicity of the induced subgraph
does make `order` return a valid topological order: every edge's
source precedes its target in the returned sequence. -/
theorem claim2_topological_amended (g : GraphModel)
    (hnd : (nodesOf g).Nodup)
    (hend : ∀ e ∈ g.connections, e.1 ∈ nodesOf g ∧ e.2 ∈ nodesOf g)
    (hnc : ¬ HasCycle (inducedEdges g)) :
    ∃ l, orderModel g = some l ∧
      ∀ e ∈ g.connections, ∃ i j, i < j ∧
        l.get? i = some e.1 ∧ l.get? j = some e.2 := by
  have hieq : inducedEdges g = g.connections := by
    unfold inducedEdges
    apply List.filter_eq_self.mpr
    intro e he
    obtain ⟨h1, h2⟩ := hend e he
    simp [h1, h2]
  rw [hieq] at hnc
  obtain ⟨ord, hout, heq⟩ := topological_sort_kout (nodesOf g) g.connections
    hnd (fun e he => (hend e he).2)
  have hall : ∀ x ∈ nodesOf g, x ∈ ord :=
    kout_complete_of_acyclic (nodesOf g) g.connections ord hend hnc hout
  have hlen : ord.length = (nodesOf g).length := by
    have h2 := List.toFinset_card_of_nodup hout.nodup
    have h3 := List.toFinset_card_of_nodup hnd
    have h1 : ord.toFinset ⊆ (nodesOf g).toFinset := fun x hx =>
      List.mem_toFinset.mpr (hout.sub x (List.mem_toFinset.mp hx))
    have h4 : (nodesOf g).toFinset ⊆ ord.toFinset := fun x hx =>
      List.mem_toFinset.mpr (hall x (List.mem_toFinset.mp hx))
    have h5 := Finset.card_le_card h1
    have h6 := Finset.card_le_card h4
    omega
  refine ⟨ord, by unfold orderModel; rw [heq, if_pos hlen], ?_⟩
  intro e he
  have he2 : e.2 ∈ ord := hall e.2 (hend e he).2
  obtain ⟨j, hj⟩ := List.get?_of_mem he2
  obtain ⟨i, hij, hi⟩ := hout.sound e he j hj
  exact ⟨i, j, hij, hi, hj⟩

/-- **C2 witness**: on the declared chain `A → B` the amended theorem
applies and the computed order `["A", "B"]` indeed places `A` before
`B`. -/
theorem claim2_witness :
    orderModel chainPairModel = some ["A", "B"] ∧
    ∃ i j, i < j ∧ (["A", "B"] : List String).get? i = some "A" ∧
      (["A", "B"] : List String).get? j = some "B" := by
  have hcomp : orderModel chainPairModel = some ["A", "B"] := by decide
  obtain ⟨l, hl, hedges⟩ := claim2_topological_amended chainPairModel
    (by decide) (by decide)
    (by rw [show inducedEdges chainPairModel = [("A", "B")] from by decide]
        exact noCycle_single _ _ (by decide))
  have hleq : l = ["A", "B"] := by
    rw [hl] at hcomp
    exact Option.some.inj hcomp
  subst hleq
  exact ⟨hcomp, hedges ("A", "B") (by decide)⟩

/-- **C3, counterexample.**  The claim promises the declaration-order
fallback — "never a raised failure" — whenever the induced subgraph
has a cycle.  On `cyclicDanglingModel` the declared `A ↔ B` cycle is
present, yet the extra edge `A → C` targets the undeclared `C`, so the
in-degree build raises `KeyError` before any fallback: `order` returns
nothing at all. -/
theorem claim3_counterexample :
    HasCycle (inducedEdges cyclicDanglingModel) ∧
    orderModel cyclicDanglingModel = none := by
  constructor
  · refine ⟨"A", ["B"], ?_⟩
    exact List.Chain.cons (by decide) (List.Chain.cons (by decide) List.Chain.nil)
  · decide

/-- **C3 (amended).**  On a model whose component keys are distinct
and **whose edge targets are all declared** (sources may dangle), a
cycle in the induced subgraph does force the fallback: `order` returns
exactly the declared components in declaration order — the whole
sequence, not a prefix, and no failure. -/
theorem claim3_cycle_fallback_amended (g : GraphModel)
    (hnd : (nodesOf g).Nodup)
    (htgt : ∀ e ∈ g.connections, e.2 ∈ nodesOf g)
    (hcyc : HasCycle (inducedEdges g)) :
    orderModel g = some (nodesOf g) := by
  obtain ⟨ord, hout, heq⟩ := topological_sort_kout (nodesOf g) g.connections
    hnd htgt
  suffices h : ¬ (ord.length = (nodesOf g).length) by
    unfold orderModel
    rw [heq, if_neg h]
  intro hlen
  have hall : ∀ x ∈ nodesOf g, x ∈ ord := by
    have h2 := List.toFinset_card_of_nodup hout.nodup
    have h3 := List.toFinset_card_of_nodup hnd
    have h1 : ord.toFinset ⊆ (nodesOf g).toFinset := fun x hx =>
      List.mem_toFinset.mpr (hout.sub x (List.mem_toFinset.mp hx))
    have h4 : ord.toFinset = (nodesOf g).toFinset :=
      Finset.eq_of_subset_of_card_le h1 (by omega)
    intro x hx
    exact List.mem_toFinset.mp (h4 ▸ List.mem_toFinset.mpr hx)
  refine no_full_order_of_cycle g.connections (inducedEdges g) (nodesOf g) ord
    (fun e he => List.mem_of_mem_filter he) ?_ hcyc hout hall
  intro e he
  have hp := (List.mem_filter.mp he).2
  have h2 := (Bool.and_eq_true _ _).mp hp
  simpa using h2.2

/-- **C3 witness**: on the clean declared two-cycle the amended
theorem applies and `order` returns the declaration order
`["A", "B"]`. -/
theorem claim3_witness :
    orderModel cyclicPairModel = some ["A", "B"] := by
  have h := claim3_cycle_fallback_amended cyclicPairModel (by decide) (by decide)
    ⟨"A", ["B"], List.Chain.cons (by decide)
      (List.Chain.cons (by decide) List.Chain.nil)⟩
  rw [h]
  decide

/-- **C5 witness**: two declarations of `A`; the survivor is the second
(type `reformat`), holding only the post-declaration parameter. -/
theorem claim5_witness :
    countKeys (processLines initState
      (["component \"A\" of \"input_table\"", "parameter \"x\" = \"1\";"] ++
        "component \"A\" of \"reformat\"" ::
        ["parameter \"y\" = \"2\";"])).graph.components "A" = 1 ∧
    (processLines initState
      (["component \"A\" of \"input_table\"", "parameter \"x\" = \"1\";"] ++
        ["component \"A\" of \"reformat\""])).current = some "A" := by
  have h := claim5_last_declaration_wins
    ["component \"A\" of \"input_table\"", "parameter \"x\" = \"1\";"]
    ["parameter \"y\" = \"2\";"]
    "component \"A\" of \"reformat\"" "A" "reformat" (by decide)
    (by intro l2 hl2
        simp only [List.mem_singleton] at hl2
        subst hl2
        decide)
  exact ⟨h.1, h.2.2⟩

end Abinitio
